import Mathlib

/-!
Verification of the file-process system's document-parsing and
requirement-matching core, shallowly embedded from the Python source
(`file_process/models/bid_document_parser.py`,
`file_process/models/word_parser.py`, `config/db_config.py`).

Text is modelled as `List Char` (Python `str`); machine integers do not
occur (Python ints are unbounded); fallible code returns `Except Unit`;
database / LLM / web-search collaborators are modelled as oracle fields of
an environment record, quantified over in the theorems.
-/

namespace FileProcess

/-! ### Python string primitives -/

/-- Whitespace characters of Python's `str.strip` / regex `\s`
(ASCII part; the documents at issue contain no exotic Unicode spaces). -/
def pyWs (c : Char) : Bool :=
  c == ' ' || c == '\t' || c == '\n' || c == '\r' || c == '\x0b' || c == '\x0c'

/-- Drop from the right while a predicate holds (used for Python `rstrip`). -/
def rdw (p : Char → Bool) (l : List Char) : List Char :=
  (l.reverse.dropWhile p).reverse

/-- Python `str.strip()` with no arguments. -/
def pyStrip (l : List Char) : List Char :=
  rdw pyWs (l.dropWhile pyWs)

/-- Python `str.split(sep)` for a one-character separator. -/
def splitOnChar (c : Char) : List Char → List (List Char)
  | [] => [[]]
  | x :: xs =>
    let r := splitOnChar c xs
    if x = c then [] :: r
    else
      match r with
      | [] => [[x]]
      | y :: ys => (x :: y) :: ys

/-- Python `sep.join(parts)`. -/
def joinSep (sep : List Char) : List (List Char) → List Char
  | [] => []
  | [p] => p
  | p :: ps => p ++ sep ++ joinSep sep ps

/-- Python substring test `needle in hay`. -/
def containsSub (needle : List Char) : List Char → Bool
  | [] => needle.isEmpty
  | c :: rest => needle.isPrefixOf (c :: rest) || containsSub needle rest

/-! ### Decimal rendering of integers (Python `str(n)` / f-string interpolation) -/

/-- Decimal digits of `n`, most significant first; the first argument is
structural fuel (any value `> n` gives the digits of `n`). -/
def natDigsAux : Nat → Nat → List Char
  | 0, _ => []
  | k + 1, n =>
    if n < 10 then [Nat.digitChar n]
    else natDigsAux k (n / 10) ++ [Nat.digitChar (n % 10)]

/-- Decimal rendering of a natural number, as Python `str(n)`. -/
def natDigs (n : Nat) : List Char := natDigsAux (n + 1) n

/-- Decimal rendering of an integer, as Python `str(i)`. -/
def intDigs (i : Int) : List Char :=
  if i < 0 then '-' :: natDigs (-i).toNat else natDigs i.toNat

/-- Numeric value of a digit list (the standard left fold). -/
def valOf (l : List Char) : Nat :=
  l.foldl (fun a c => 10 * a + (c.toNat - 48)) 0

theorem natDigsAux_irrel (k k' n : Nat) (h : n < k) (h' : n < k') :
    natDigsAux k n = natDigsAux k' n := by
  induction k generalizing k' n with
  | zero => omega
  | succ k ih =>
    cases k' with
    | zero => omega
    | succ k' =>
      simp only [natDigsAux]
      split
      · rfl
      · rename_i hn
        rw [ih k' (n / 10) (by omega) (by omega)]

theorem natDigs_eq_aux (k n : Nat) (h : n < k) : natDigs n = natDigsAux k n :=
  natDigsAux_irrel (n + 1) k n (Nat.lt_succ_self n) h

theorem digitChar_toNat (d : Nat) (h : d < 10) : (Nat.digitChar d).toNat = 48 + d := by
  interval_cases d <;> decide

theorem digitChar_isDigit (d : Nat) (h : d < 10) : (Nat.digitChar d).isDigit = true := by
  interval_cases d <;> decide

theorem valOf_append_digit (l : List Char) (c : Char) :
    valOf (l ++ [c]) = 10 * valOf l + (c.toNat - 48) := by
  simp [valOf, List.foldl_append]

theorem valOf_natDigs (n : Nat) : valOf (natDigs n) = n := by
  induction n using Nat.strong_induction_on with
  | _ n ih =>
    rw [natDigs]
    rw [show natDigsAux (n + 1) n
        = if n < 10 then [Nat.digitChar n]
          else natDigsAux n (n / 10) ++ [Nat.digitChar (n % 10)] from rfl]
    split
    · rename_i h
      simp [valOf, digitChar_toNat n h]
    · rename_i h
      rw [valOf_append_digit]
      rw [← natDigs_eq_aux n (n / 10) (by omega)]
      rw [ih (n / 10) (by omega)]
      rw [digitChar_toNat (n % 10) (by omega)]
      omega

theorem natDigs_injective (a b : Nat) (h : natDigs a = natDigs b) : a = b := by
  have := valOf_natDigs a
  rw [h, valOf_natDigs b] at this
  omega

theorem natDigs_ne_nil (n : Nat) : natDigs n ≠ [] := by
  rw [natDigs]
  rw [show natDigsAux (n + 1) n
      = if n < 10 then [Nat.digitChar n]
        else natDigsAux n (n / 10) ++ [Nat.digitChar (n % 10)] from rfl]
  split <;> simp

theorem natDigs_all_digits (n : Nat) : ∀ c ∈ natDigs n, c.isDigit = true := by
  induction n using Nat.strong_induction_on with
  | _ n ih =>
    rw [natDigs]
    rw [show natDigsAux (n + 1) n
        = if n < 10 then [Nat.digitChar n]
          else natDigsAux n (n / 10) ++ [Nat.digitChar (n % 10)] from rfl]
    split
    · rename_i h
      intro c hc
      simp at hc
      subst hc
      exact digitChar_isDigit n h
    · rename_i h
      intro c hc
      rw [← natDigs_eq_aux n (n / 10) (by omega)] at hc
      rcases List.mem_append.mp hc with h1 | h1
      · exact ih (n / 10) (by omega) c h1
      · simp at h1
        subst h1
        exact digitChar_isDigit (n % 10) (by omega)

/-! ### Python `int(str)` (sign, ASCII digits, single interior underscores) -/

/-- Digit/underscore body check: underscores must be single and between digits
(the head digit is checked by the caller). -/
def digitsUnders : List Char → Bool
  | [] => true
  | '_' :: d :: rest => d.isDigit && digitsUnders rest
  | '_' :: [] => false
  | c :: rest => c.isDigit && digitsUnders rest

/-- Numeric value of a digit string that may contain underscores. -/
def uVal (l : List Char) : Nat :=
  l.foldl (fun a c => if c = '_' then a else 10 * a + (c.toNat - 48)) 0

/-- Unsigned part of Python `int(str)`. -/
def parseUDigits (l : List Char) : Option Nat :=
  match l with
  | [] => none
  | c :: _ => if c.isDigit && digitsUnders l then some (uVal l) else none

/-- Python `int(str)`: `none` models a raised `ValueError`.
(Non-ASCII digit forms are out of scope for the strings at issue.) -/
def pyInt (l : List Char) : Option Int :=
  match pyStrip l with
  | '+' :: rest => (parseUDigits rest).map (fun n => (n : Int))
  | '-' :: rest => (parseUDigits rest).map (fun n => -(n : Int))
  | s => (parseUDigits s).map (fun n => (n : Int))

/-! ### Section-number normalization (claim C7)

`BidDocumentParser._normalize_section_number` splits on `.` and re-renders
every segment that parses as an int; `UserInstructionParser._normalize_number`
first strips whitespace and trailing dots and then does the same. -/

/-- Per-segment step shared by both normalizers: `str(int(part))` on success,
the segment itself on `ValueError`. -/
def normalizePart (p : List Char) : List Char :=
  match pyInt p with
  | some k => intDigs k
  | none => p

/-- `BidDocumentParser._normalize_section_number`. -/
def normalize_section_number (s : List Char) : List Char :=
  joinSep ['.'] ((splitOnChar '.' s).map normalizePart)

/-- `UserInstructionParser._normalize_number`. -/
def normalize_number (s : List Char) : List Char :=
  let t := rdw (· == '.') (pyStrip s)
  joinSep ['.'] ((splitOnChar '.' t).map normalizePart)

/-! ### Auto-numbering counters for styled headings (claim C5)

From `BidDocumentParser._parse_section_title`: on a styled heading of level
`hl` (1-based, `hl ≤ 9`), slot `hl-1` of the ten-slot counter array is
incremented and every deeper slot is zeroed; the generated number is the
dot-join of the nonzero slots among the first `hl`. -/

/-- Increment slot `k` and zero every later slot (the rendering of
`heading_counters[hl-1] += 1` followed by
`for i in range(hl, 10): heading_counters[i] = 0` on the ten-slot array,
with `k = hl - 1`). -/
def bumpAndZero : Nat → List Nat → List Nat
  | _, [] => []
  | 0, x :: t => (x + 1) :: t.map (fun _ => 0)
  | k + 1, x :: t => x :: bumpAndZero k t

/-- Counter update for a styled heading of level `hl`. -/
def headingCounterStep (c : List Nat) (hl : Nat) : List Nat :=
  bumpAndZero (hl - 1) c

/-- Generated dotted number:
`'.'.join(str(c[i]) for i in range(hl) if c[i] > 0)`. -/
def generatedNumber (c : List Nat) (hl : Nat) : List Char :=
  joinSep ['.']
    (((List.range hl).filterMap
      (fun i => if c.getD i 0 > 0 then some (natDigs (c.getD i 0)) else none)))

theorem bumpAndZero_length (k : Nat) (l : List Nat) :
    (bumpAndZero k l).length = l.length := by
  induction l generalizing k with
  | nil => cases k <;> rfl
  | cons x t ih =>
    cases k with
    | zero => simp [bumpAndZero]
    | succ k => simp [bumpAndZero, ih]

theorem bumpAndZero_getD_lt (k i : Nat) (l : List Nat) (hi : i < k) :
    (bumpAndZero k l).getD i 0 = l.getD i 0 := by
  induction l generalizing k i with
  | nil => cases k with
    | zero => omega
    | succ k => rfl
  | cons x t ih =>
    cases k with
    | zero => omega
    | succ k =>
      cases i with
      | zero => rfl
      | succ i => simpa [bumpAndZero] using ih k i (by omega)

theorem bumpAndZero_getD_gt (k i : Nat) (l : List Nat) (hi : k < i) :
    (bumpAndZero k l).getD i 0 = 0 := by
  induction l generalizing k i with
  | nil => cases k <;> simp [bumpAndZero, List.getD]
  | cons x t ih =>
    cases k with
    | zero =>
      cases i with
      | zero => omega
      | succ i =>
        simp only [bumpAndZero, List.getD_cons_succ]
        rcases Nat.lt_or_ge i t.length with h | h
        · rw [List.getD_eq_getElem _ _ (by simpa using h), List.getElem_map]
        · rw [List.getD_eq_default _ _ (by simpa using h)]
    | succ k =>
      cases i with
      | zero => omega
      | succ i => simpa [bumpAndZero] using ih k i (by omega)

theorem bumpAndZero_getD_self (k : Nat) (l : List Nat) (hk : k < l.length) :
    (bumpAndZero k l).getD k 0 = l.getD k 0 + 1 := by
  induction l generalizing k with
  | nil => simp at hk
  | cons x t ih =>
    cases k with
    | zero => rfl
    | succ k => simpa [bumpAndZero] using ih k (by simpa using hk)

theorem headingCounterStep_length (c : List Nat) (hl : Nat) :
    (headingCounterStep c hl).length = c.length :=
  bumpAndZero_length (hl - 1) c

theorem headingCounterStep_getD_ge (c : List Nat) (hl i : Nat) (hhl : hl ≤ i)
    (h1 : 1 ≤ hl) :
    (headingCounterStep c hl).getD i 0 = 0 :=
  bumpAndZero_getD_gt (hl - 1) i c (by omega)

theorem headingCounterStep_getD_lt (c : List Nat) (hl i : Nat) (hi : i < hl)
    (hne : i ≠ hl - 1) :
    (headingCounterStep c hl).getD i 0 = c.getD i 0 :=
  bumpAndZero_getD_lt (hl - 1) i c (by omega)

theorem headingCounterStep_getD_self (c : List Nat) (hl : Nat) (h1 : 1 ≤ hl)
    (hlen : hl - 1 < c.length) :
    (headingCounterStep c hl).getD (hl - 1) 0 = c.getD (hl - 1) 0 + 1 :=
  bumpAndZero_getD_self (hl - 1) c hlen

theorem foldl_headingCounterStep_length (mid : List Nat) (c : List Nat) :
    (mid.foldl headingCounterStep c).length = c.length := by
  induction mid generalizing c with
  | nil => rfl
  | cons l t ih => simp only [List.foldl_cons, ih, headingCounterStep_length]

theorem foldl_headingCounterStep_shallow (d : Nat) (mid : List Nat)
    (hmid : ∀ l ∈ mid, d ≤ l) (c : List Nat) (i : Nat) (hi : i + 1 < d) :
    (mid.foldl headingCounterStep c).getD i 0 = c.getD i 0 := by
  induction mid generalizing c with
  | nil => rfl
  | cons l t ih =>
    have hl : d ≤ l := hmid l (List.mem_cons_self l t)
    simp only [List.foldl_cons]
    rw [ih (fun x hx => hmid x (List.mem_cons_of_mem l hx))]
    exact headingCounterStep_getD_lt c l i (by omega) (by omega)

theorem foldl_headingCounterStep_slot_mono (d : Nat) (h1 : 1 ≤ d) (mid : List Nat)
    (hmid : ∀ l ∈ mid, d ≤ l) (c : List Nat) (hlen : d - 1 < c.length) :
    c.getD (d - 1) 0 ≤ (mid.foldl headingCounterStep c).getD (d - 1) 0 := by
  induction mid generalizing c with
  | nil => exact le_refl _
  | cons l t ih =>
    have hl : d ≤ l := hmid l (List.mem_cons_self l t)
    simp only [List.foldl_cons]
    have step1 : c.getD (d - 1) 0 ≤ (headingCounterStep c l).getD (d - 1) 0 := by
      rcases Nat.eq_or_lt_of_le hl with he | hlt
      · rw [← he]
        rw [headingCounterStep_getD_self c d (by omega) (by omega)]
        omega
      · rw [headingCounterStep_getD_lt c l (d - 1) (by omega) (by omega)]
    have hlen2 : d - 1 < (headingCounterStep c l).length := by
      rw [headingCounterStep_length]
      exact hlen
    exact step1.trans
      (ih (fun x hx => hmid x (List.mem_cons_of_mem l hx)) (headingCounterStep c l) hlen2)

theorem joinSep_snoc (sep x : List Char) (P : List (List Char)) (hP : P ≠ []) :
    joinSep sep (P ++ [x]) = joinSep sep P ++ sep ++ x := by
  induction P with
  | nil => exact absurd rfl hP
  | cons p ps ih =>
    cases ps with
    | nil => simp [joinSep]
    | cons q qs =>
      have h2 := ih (List.cons_ne_nil q qs)
      simp only [List.cons_append] at h2 ⊢
      show p ++ sep ++ joinSep sep (q :: (qs ++ [x]))
        = (p ++ sep ++ joinSep sep (q :: qs)) ++ sep ++ x
      rw [h2]
      simp [List.append_assoc]

theorem joinSep_snoc_inj (sep x y : List Char) (P : List (List Char))
    (h : joinSep sep (P ++ [x]) = joinSep sep (P ++ [y])) : x = y := by
  cases P with
  | nil => simpa [joinSep] using h
  | cons p ps =>
    rw [joinSep_snoc sep x (p :: ps) (by simp), joinSep_snoc sep y (p :: ps) (by simp)] at h
    exact List.append_cancel_left h

/-- **C5.** In the auto-numbering counter array used for styled headings
(`BidDocumentParser._parse_section_title`, lines 225-240), processing a
heading at depth `d` (1-based slot `d-1`) increments the counter slot for
depth `d` and zeroes every slot at depth greater than `d`; consequently two
sibling headings at the same depth `d` — i.e. with no intervening styled
heading of depth `< d`, the levels between them being `mid` — never produce
the same generated dotted section number. -/
theorem c5_auto_numbering (c : List Nat) (hc : c.length = 10) (d : Nat)
    (hd1 : 1 ≤ d) (hd9 : d ≤ 9) (mid : List Nat) (hmid : ∀ l ∈ mid, d ≤ l) :
    ((headingCounterStep c d).getD (d - 1) 0 = c.getD (d - 1) 0 + 1
      ∧ ∀ i, d ≤ i → (headingCounterStep c d).getD i 0 = 0)
    ∧ generatedNumber (headingCounterStep c d) d
        ≠ generatedNumber
            (headingCounterStep
              (mid.foldl headingCounterStep (headingCounterStep c d)) d) d := by
  have hdlen : d - 1 < c.length := by omega
  refine ⟨⟨headingCounterStep_getD_self c d hd1 hdlen,
      fun i hi => headingCounterStep_getD_ge c d i hi hd1⟩, ?_⟩
  intro heq
  set c1 := headingCounterStep c d with hc1
  set F := mid.foldl headingCounterStep c1 with hF
  set c2 := headingCounterStep F d with hc2
  have hlen1 : c1.length = 10 := by rw [hc1, headingCounterStep_length, hc]
  have hlenF : F.length = 10 := by rw [hF, foldl_headingCounterStep_length, hlen1]
  have ha : c1.getD (d - 1) 0 = c.getD (d - 1) 0 + 1 :=
    headingCounterStep_getD_self c d hd1 hdlen
  have hmono : c1.getD (d - 1) 0 ≤ F.getD (d - 1) 0 :=
    foldl_headingCounterStep_slot_mono d hd1 mid hmid c1 (by omega)
  have hb : c2.getD (d - 1) 0 = F.getD (d - 1) 0 + 1 :=
    headingCounterStep_getD_self F d hd1 (by omega)
  have hvalne : c1.getD (d - 1) 0 ≠ c2.getD (d - 1) 0 := by omega
  have hrange : List.range d = List.range (d - 1) ++ [d - 1] := by
    conv_lhs => rw [show d = (d - 1) + 1 by omega]
    exact List.range_succ (d - 1)
  have hpre : ∀ i ∈ List.range (d - 1), c2.getD i 0 = c1.getD i 0 := by
    intro i hi
    rw [List.mem_range] at hi
    rw [hc2, headingCounterStep_getD_lt F d i (by omega) (by omega),
      hF, foldl_headingCounterStep_shallow d mid hmid c1 i (by omega)]
  have hgen : ∀ x : List Nat, 0 < x.getD (d - 1) 0 →
      generatedNumber x d
        = joinSep ['.']
            ((List.range (d - 1)).filterMap
              (fun i => if x.getD i 0 > 0 then some (natDigs (x.getD i 0)) else none)
              ++ [natDigs (x.getD (d - 1) 0)]) := by
    intro x hx
    rw [generatedNumber, hrange, List.filterMap_append]
    congr 1
    have hpos : (if x.getD (d - 1) 0 > 0 then some (natDigs (x.getD (d - 1) 0)) else none)
        = some (natDigs (x.getD (d - 1) 0)) := if_pos hx
    simp only [List.filterMap_cons, List.filterMap_nil, hpos]
  rw [hgen c1 (by omega), hgen c2 (by omega)] at heq
  have hppeq : (List.range (d - 1)).filterMap
      (fun i => if c2.getD i 0 > 0 then some (natDigs (c2.getD i 0)) else none)
      = (List.range (d - 1)).filterMap
      (fun i => if c1.getD i 0 > 0 then some (natDigs (c1.getD i 0)) else none) :=
    List.filterMap_congr (fun i hi => by rw [hpre i hi])
  rw [hppeq] at heq
  exact hvalne (natDigs_injective _ _ (joinSep_snoc_inj _ _ _ _ heq))

theorem c5_auto_numbering_witness :
    generatedNumber (headingCounterStep [1, 0, 0, 0, 0, 0, 0, 0, 0, 0] 2) 2
      ≠ generatedNumber
          (headingCounterStep
            ([3].foldl headingCounterStep
              (headingCounterStep [1, 0, 0, 0, 0, 0, 0, 0, 0, 0] 2)) 2) 2 :=
  (c5_auto_numbering [1, 0, 0, 0, 0, 0, 0, 0, 0, 0] (by decide) 2 (by decide)
    (by decide) [3] (by decide)).2

/-! ### Table rows as Python dicts with mixed value types (claims C3)

`BidDocumentParser._parse_table` stores, for every data row, the cell text
under each header key **and** the 1-based row number under the literal key
`'index'` (an `int`).  A row dict therefore maps strings to either strings
or ints. -/

/-- A Python dict value appearing in a parsed table row: a string or an int. -/
inductive CellV where
  | s (v : List Char)
  | i (v : Int)
deriving DecidableEq

/-- Python truthiness of a row value. -/
def truthy : CellV → Bool
  | .s v => !v.isEmpty
  | .i n => n != 0

/-- Python dict assignment `d[k] = v` (replace in place, else append). -/
def dictSet (d : List (List Char × CellV)) (k : List Char) (v : CellV) :
    List (List Char × CellV) :=
  match d with
  | [] => [(k, v)]
  | (k', v') :: rest => if k' = k then (k, v) :: rest else (k', v') :: dictSet rest k v

/-- Python `d.get(k, dflt)`. -/
def dictGet (d : List (List Char × CellV)) (k : List Char) (dflt : CellV) : CellV :=
  match d.find? (fun e => e.1 == k) with
  | some e => e.2
  | none => dflt

/-- Python `k in d and d[k]` (membership plus truthiness). -/
def dictHasTruthy (d : List (List Char × CellV)) (k : List Char) : Bool :=
  match d.find? (fun e => e.1 == k) with
  | some e => truthy e.2
  | none => false

/-- One row of `_parse_table`: for each cell,
`row_data[header] = cell_text` then `row_data['index'] = row_idx`. -/
def mkRowAux (headers : List (List Char)) (rowIdx : Nat) (colIdx : Nat)
    (cells : List (List Char)) (d : List (List Char × CellV)) :
    List (List Char × CellV) :=
  match cells with
  | [] => d
  | c :: rest =>
    let header := headers.getD colIdx ("col_".data ++ natDigs colIdx)
    let d1 := dictSet d header (.s c)
    let d2 := dictSet d1 "index".data (.i (rowIdx : Int))
    mkRowAux headers rowIdx (colIdx + 1) rest d2

def mkRow (headers : List (List Char)) (cells : List (List Char)) (rowIdx : Nat) :
    List (List Char × CellV) :=
  mkRowAux headers rowIdx 0 cells []

/-- Parsed table: type tag, header texts, and row dicts. -/
structure TableData where
  ttype : List Char
  headers : List (List Char)
  rows : List (List (List Char × CellV))
deriving DecidableEq

/-- `BidDocumentParser.TABLE_HEADER_KEYWORDS`. -/
def TABLE_HEADER_KEYWORDS : List (List Char) :=
  ["序号".data, "技术要求".data, "技术规格".data, "功能要求".data,
   "参数".data, "指标".data, "规格".data, "要求".data]

/-- `BidDocumentParser._parse_table`, taking the grid of cell texts
(as produced by `_get_cell_text`); `none` models the empty-table early
return. -/
def parse_table (grid : List (List (List Char))) : Option TableData :=
  match grid with
  | [] => none
  | headerRow :: rest =>
    let isReq := TABLE_HEADER_KEYWORDS.any
      (fun kw => containsSub kw (joinSep [] headerRow))
    some
      { ttype := if isReq then "requirement_table".data else "data_table".data
        headers := headerRow
        rows := (List.range rest.length).zip rest |>.map
          (fun p => mkRow headerRow p.2 (p.1 + 1)) }

/-- A requirement item (the dicts built by the various extraction paths;
`rsection`/`sectionTitle` are the `'section'`/`'section_title'` tags added by
`get_all_requirements_from_section`). -/
structure ReqItem where
  index : CellV
  text : List Char
  spec : List Char := []
  rtype : List Char
  rsection : List Char := []
  sectionTitle : List Char := []
deriving DecidableEq

/-! ### `BidDocumentParser._extract_requirements_from_table` (claim C3) -/

def INDEX_VOCAB : List (List Char) :=
  ["序号".data, "编号".data, "项".data, "No".data, "No.".data, "#".data]

def REQ_KEYWORDS : List (List Char) :=
  ["技术要求".data, "功能要求".data, "要求".data, "功能".data,
   "项目".data, "名称".data, "技术项".data]

def SPEC_KEYWORDS : List (List Char) :=
  ["技术规格".data, "规格".data, "规格要求".data, "参数".data,
   "参数值".data, "技术参数".data, "指标".data, "指标要求".data]

def REQ_FALLBACK_KEYS : List (List Char) :=
  ["技术要求".data, "功能要求".data, "要求".data, "功能".data, "项目".data]

def SPEC_FALLBACK_KEYS : List (List Char) :=
  ["技术规格".data, "规格".data, "规格要求".data, "参数".data, "参数值".data]

/-- First header whose stripped text is exactly in the index vocabulary. -/
def findIdxCol (headers : List (List Char)) : Option Nat :=
  headers.findIdx? (fun h => INDEX_VOCAB.contains (pyStrip h))

/-- First keyword (in keyword-list order) contained in some header, and the
first such header's column. -/
def findKwCol (kws headers : List (List Char)) : Option Nat :=
  kws.findSome? (fun kw => headers.findIdx? (fun h => containsSub kw h))

/-- Requirement column with the positional fallback
(second column after a leading index column, else the first column). -/
def reqColOf (headers : List (List Char)) (idxCol : Option Nat) : Option Nat :=
  match findKwCol REQ_KEYWORDS headers with
  | some i => some i
  | none =>
    if 2 ≤ headers.length ∧ idxCol = some 0 then some 1
    else if 1 ≤ headers.length then some 0
    else none

/-- Spec column with the positional fallback (first column that is neither
the index nor the requirement column, when there are at least 3 columns). -/
def specColOf (headers : List (List Char)) (idxCol reqCol : Option Nat) : Option Nat :=
  match findKwCol SPEC_KEYWORDS headers with
  | some i => some i
  | none =>
    if 3 ≤ headers.length ∧ reqCol ≠ none then
      (List.range headers.length).find?
        (fun i => (idxCol != some i) && (reqCol != some i))
    else none

/-- `index_val.replace('↵','').replace('←','').strip()` (strings only). -/
def stripArrows (t : List Char) : List Char :=
  pyStrip (t.filter (fun c => !(c == '↵' || c == '←')))

def cleanIndexVal : CellV → CellV
  | .s t => .s (stripArrows t)
  | .i n => .i n

/-- `text.replace('↵','\n').replace('←','').strip()`. -/
def cleanBody (t : List Char) : List Char :=
  pyStrip ((t.map (fun c => if c = '↵' then '\n' else c)).filter (fun c => !(c == '←')))

/-- Python `a or b`. -/
def pyOrV (a b : CellV) : CellV := if truthy a then a else b

/-- String content of a cell value (`.i` cannot reach this point on the
crash-free path: a truthy int has already raised in `cleanCell`). -/
def textOf : CellV → List Char
  | .s v => v
  | .i n => intDigs n

/-- `if v: v = v.replace(...)` — a truthy int raises `AttributeError`
(`'int' object has no attribute 'replace'`), modelled as `Except.error`. -/
def cleanCell (v : CellV) : Except Unit CellV :=
  if truthy v then
    match v with
    | .s t => .ok (.s (cleanBody t))
    | .i _ => .error ()
  else .ok v

/-- One row of `_extract_requirements_from_table`'s extraction loop;
`rowIdx` is the 0-based `enumerate` counter of that loop. -/
def extractRow (headers : List (List Char)) (idxCol reqCol specCol : Option Nat)
    (rowIdx : Nat) (row : List (List Char × CellV)) : Except Unit (Option ReqItem) := do
  let indexVal :=
    match idxCol with
    | some i => pyOrV (dictGet row (headers.getD i []) (.s []))
        (dictGet row "index".data (.i ((rowIdx : Int) + 1)))
    | none => pyOrV (dictGet row "序号".data (.s []))
        (dictGet row "index".data (.i ((rowIdx : Int) + 1)))
  let indexVal := cleanIndexVal indexVal
  let req0 :=
    match reqCol with
    | some i => dictGet row (headers.getD i []) (.s [])
    | none => .s []
  let req1 := if truthy req0 then req0 else
    match REQ_FALLBACK_KEYS.find? (fun k => dictHasTruthy row k) with
    | some k => dictGet row k (.s [])
    | none => req0
  let spec0 :=
    match specCol with
    | some i => dictGet row (headers.getD i []) (.s [])
    | none => .s []
  let spec1 := if truthy spec0 then spec0 else
    match SPEC_FALLBACK_KEYS.find? (fun k => dictHasTruthy row k) with
    | some k => dictGet row k (.s [])
    | none => spec0
  let req2 ← cleanCell req1
  let spec2 ← cleanCell spec1
  if truthy req2 || truthy spec2 then
    .ok (some { index := indexVal, text := textOf req2, spec := textOf spec2,
                rtype := "table".data })
  else
    .ok none

def extractRowsAux (headers : List (List Char)) (idxCol reqCol specCol : Option Nat) :
    Nat → List (List (List Char × CellV)) → Except Unit (List ReqItem)
  | _, [] => .ok []
  | n, r :: rest => do
    let o ← extractRow headers idxCol reqCol specCol n r
    let tail ← extractRowsAux headers idxCol reqCol specCol (n + 1) rest
    match o with
    | some q => .ok (q :: tail)
    | none => .ok tail

/-- `BidDocumentParser._extract_requirements_from_table`. -/
def extract_requirements_from_table (t : TableData) : Except Unit (List ReqItem) :=
  if t.rows.isEmpty then .ok []
  else
    let idxCol := findIdxCol t.headers
    let reqCol := reqColOf t.headers idxCol
    let specCol := specColOf t.headers idxCol reqCol
    extractRowsAux t.headers idxCol reqCol specCol 0 t.rows

/-! ### `BidDocumentParser._parse_requirements_from_content` (claim C3) -/

def circledDigits : List Char :=
  ['①', '②', '③', '④', '⑤', '⑥', '⑦', '⑧', '⑨', '⑩', '⑪', '⑫', '⑬', '⑭', '⑮']

/-- The match of a requirement-line pattern: two capture groups
(index, text) or a single text group (bullet lines). -/
inductive LineMatch where
  | two (idx : List Char) (txt : List Char)
  | one (txt : List Char)

/-- `\s*(.+)` at the end of a line pattern: greedy whitespace skip that
backtracks one character when the remainder is whitespace only (regex
`.+` must still consume at least one character). -/
def tailGroup (r : List Char) : Option (List Char) :=
  match r, r.dropWhile pyWs with
  | [], _ => none
  | _ :: _, [] => (r.getLast?).map (fun c => [c])
  | _ :: _, r' => some r'

/-- `^(\d+)[\.、\)]\s*(.+)`. -/
def matchNumSep (line : List Char) : Option LineMatch :=
  let ds := line.takeWhile Char.isDigit
  if ds.isEmpty then none
  else
    match line.dropWhile Char.isDigit with
    | c :: r =>
      if c = '.' ∨ c = '、' ∨ c = ')' then (tailGroup r).map (.two ds) else none
    | [] => none

/-- `^\((\d+)\)\s*(.+)`. -/
def matchParen (line : List Char) : Option LineMatch :=
  match line with
  | '(' :: rest =>
    let ds := rest.takeWhile Char.isDigit
    if ds.isEmpty then none
    else
      match rest.dropWhile Char.isDigit with
      | ')' :: r => (tailGroup r).map (.two ds)
      | _ => none
  | _ => none

/-- `^([①②③④⑤⑥⑦⑧⑨⑩⑪⑫⑬⑭⑮])\s*(.+)`. -/
def matchCircled (line : List Char) : Option LineMatch :=
  match line with
  | c :: r => if circledDigits.contains c then (tailGroup r).map (.two [c]) else none
  | [] => none

/-- `^[•·▪➢►]\s*(.+)`. -/
def matchBullet (line : List Char) : Option LineMatch :=
  match line with
  | c :: r =>
    if (['•', '·', '▪', '➢', '►'] : List Char).contains c then
      (tailGroup r).map (.one)
    else none
  | [] => none

/-- `^[（\(](\d+)[）\)]\s*(.+)`. -/
def matchCnParen (line : List Char) : Option LineMatch :=
  match line with
  | c :: rest =>
    if c = '（' ∨ c = '(' then
      let ds := rest.takeWhile Char.isDigit
      if ds.isEmpty then none
      else
        match rest.dropWhile Char.isDigit with
        | c2 :: r => if c2 = '）' ∨ c2 = ')' then (tailGroup r).map (.two ds) else none
        | [] => none
    else none
  | [] => none

/-- The pattern waterfall, in source order. -/
def matchContentLine (line : List Char) : Option LineMatch :=
  match matchNumSep line with
  | some m => some m
  | none =>
    match matchParen line with
    | some m => some m
    | none =>
      match matchCircled line with
      | some m => some m
      | none =>
        match matchBullet line with
        | some m => some m
        | none => matchCnParen line

/-- Loop state of `_parse_requirements_from_content`. -/
structure PRCSt where
  currentIndex : Int
  currentText : List (List Char)
  hasNumbered : Bool
  reqs : List ReqItem

/-- Close the currently open item, if any. -/
def flushPRC (st : PRCSt) : List ReqItem :=
  if st.currentText.isEmpty then st.reqs
  else st.reqs
    ++ [{ index := .i st.currentIndex, text := joinSep ['\n'] st.currentText,
          rtype := "list".data }]

/-- `'①...⑮'.index(c) + 1` guarded by `idx_str in '①...⑮'`. -/
def circledValue (idx : List Char) : Option Nat :=
  match idx with
  | [c] => (circledDigits.findIdx? (fun x => x == c)).map (· + 1)
  | _ => none

/-- One (stripped, non-empty) line of the extraction loop. -/
def prcStep (st : PRCSt) (line : List Char) : PRCSt :=
  match matchContentLine line with
  | some m =>
    let reqs' := flushPRC st
    match m with
    | .two idx txt =>
      let newIdx : Int :=
        match circledValue idx with
        | some v => (v : Int)
        | none =>
          match pyInt idx with
          | some k => k
          | none => (reqs'.length : Int) + 1
      { currentIndex := newIdx, currentText := [txt], hasNumbered := true, reqs := reqs' }
    | .one txt =>
      { currentIndex := (reqs'.length : Int) + 1, currentText := [txt],
        hasNumbered := true, reqs := reqs' }
  | none =>
    if st.currentText.isEmpty then st
    else { st with currentText := st.currentText ++ [line] }

/-- `BidDocumentParser._parse_requirements_from_content`. -/
def parse_requirements_from_content (content : List Char) : List ReqItem :=
  if content.isEmpty then []
  else
    let lines := splitOnChar '\n' content
    let processed := lines.foldl
      (fun st line =>
        let l := pyStrip line
        if l.isEmpty then st else prcStep st l)
      { currentIndex := 0, currentText := [], hasNumbered := false, reqs := [] }
    let requirements := flushPRC processed
    if !processed.hasNumbered && requirements.isEmpty then
      let nonEmpty := (lines.map pyStrip).filter (fun l => !l.isEmpty)
      let startIdx :=
        match nonEmpty with
        | [] => 0
        | first :: _ =>
          if containsSub "以下要求".data first || containsSub "如下要求".data first
              || containsSub "具体要求".data first
              || first.getLast? == some '：' || first.getLast? == some ':' then 1
          else 0
      ((List.range (nonEmpty.drop startIdx).length).zip (nonEmpty.drop startIdx)).filterMap
        (fun p =>
          if p.2.length < 10 then none
          else some { index := .i ((p.1 : Int) + 1), text := p.2,
                      rtype := "paragraph".data })
    else requirements

/-! ### Section index and `get_all_requirements_from_section` (claims C3, C7) -/

/-- A parsed section, as the dicts built by
`BidDocumentParser.parse_document_structure`. -/
structure Sec where
  number : List Char
  title : List Char
  level : Nat
  content : List Char
  requirements : List ReqItem
  tables : List TableData
  parentNumber : Option (List Char)
  children : List (List Char)
  rawTitle : List Char
deriving DecidableEq

/-- `BidDocumentParser.get_section_by_number`: exact dict hit first, then a
scan comparing normalized forms (the section index is an insertion-ordered
dict, modelled as an association list). -/
def get_section_by_number (idx : List (List Char × Sec)) (n : List Char) : Option Sec :=
  match idx.find? (fun e => e.1 == n) with
  | some e => some e.2
  | none =>
    let nn := normalize_section_number n
    (idx.find? (fun e => normalize_section_number e.1 == nn)).map (fun e => e.2)

/-- The `'section'`/`'section_title'` tagging applied to every returned item. -/
def tagSection (n title : List Char) (q : ReqItem) : ReqItem :=
  { q with rsection := n, sectionTitle := title }

/-- `BidDocumentParser.get_all_requirements_from_section`.  The result is
`Except` because stage 3 re-runs `_extract_requirements_from_table`, which
raises on a truthy int cell value. -/
def get_all_requirements_from_section (idx : List (List Char × Sec)) (n : List Char)
    (icp : Bool) : Except Unit (List ReqItem) :=
  match get_section_by_number idx n with
  | none => .ok []
  | some s =>
    let r1 := s.requirements.map (tagSection n s.title)
    if !r1.isEmpty then .ok r1
    else
      let r2 :=
        if icp && !s.content.isEmpty then
          (parse_requirements_from_content s.content).map (tagSection n s.title)
        else []
      if !r2.isEmpty then .ok r2
      else do
        let tableReqs ← s.tables.mapM extract_requirements_from_table
        let r3 := tableReqs.flatten.map (tagSection n s.title)
        if !r3.isEmpty then .ok r3
        else
          let contentFallback :=
            if !s.content.isEmpty then s.content
            else if !s.rawTitle.isEmpty then s.rawTitle
            else s.title
          if !contentFallback.isEmpty then
            .ok [{ index := .i 1, text := contentFallback, rtype := "content".data,
                   rsection := n, sectionTitle := s.title }]
          else
            .ok [{ index := .i 1,
                   text := "章节 ".data ++ n ++ [' '] ++ s.title
                     ++ " (无具体内容)".data,
                   rtype := "empty".data, rsection := n, sectionTitle := s.title }]

/-- A data table (no requirement keyword in its headers, so it is not
extracted at parse time) whose second header cell is literally `index` —
the reserved row key that `_parse_table` overwrites with the int row
counter. -/
def c3Table : TableData :=
  { ttype := "data_table".data
    headers := ["No".data, "index".data]
    rows := [mkRow ["No".data, "index".data] ["a".data, "b".data] 1] }

/-- A parsed section whose only content is `c3Table`: no list/table
requirements were captured at parse time and the chapter body is empty, so
`get_all_requirements_from_section` reaches stage 3 (table re-extraction). -/
def c3Sec : Sec :=
  { number := "1.1".data, title := "测试".data, level := 2, content := []
    requirements := [], tables := [c3Table], parentNumber := some "1".data
    children := [], rawTitle := "1.1 测试".data }

/-- **C3 (failing input).** The claim promises that every section number that
resolves to a section yields a *non-empty list* of requirement items.  On the
section above — obtained by parsing a document whose section `1.1` holds a
table with header cells `No | index` — `get_all_requirements_from_section`
instead raises: the requirement column falls back positionally to the
`index` column, whose dict value is the int row counter `1`, and
`req_text.replace(...)` is an `AttributeError` on an int.  The first
conjunct shows the offending table really is what `_parse_table` produces
for that grid. -/
theorem c3_found_section_raises_instead_of_item :
    parse_table [["No".data, "index".data], ["a".data, "b".data]] = some c3Table
    ∧ get_all_requirements_from_section [("1.1".data, c3Sec)] "1.1".data true
        = Except.error () :=
  ⟨by decide, rfl⟩

/-- **C7 (counterexample).** The claim states that normalization strips
trailing separators in *both* implementations; `_normalize_section_number`
(the section-index lookup's) keeps the trailing dot of `"1.2."`, since the
empty final segment merely fails `int()` and is kept verbatim. -/
theorem c7_counterexample :
    normalize_section_number "1.2.".data = "1.2.".data
    ∧ normalize_section_number "1.2.".data ≠ "1.2".data := by
  exact ⟨by decide, by decide⟩

theorem c7_lookup_iff (idx : List (List Char × Sec)) (n : List Char) :
    (get_section_by_number idx n).isSome
      ↔ ∃ e ∈ idx, normalize_section_number e.1 = normalize_section_number n := by
  unfold get_section_by_number
  cases hf : idx.find? (fun e => e.1 == n) with
  | some e =>
    apply iff_of_true rfl
    refine ⟨e, List.mem_of_find?_eq_some hf, ?_⟩
    have hp := List.find?_some hf
    simp only [beq_iff_eq] at hp
    rw [hp]
  | none =>
    cases hf2 : idx.find?
        (fun e => normalize_section_number e.1 == normalize_section_number n) with
    | some e2 =>
      simp only [hf2, Option.map_some']
      apply iff_of_true rfl
      refine ⟨e2, List.mem_of_find?_eq_some hf2, ?_⟩
      have hp := List.find?_some hf2
      simpa using hp
    | none =>
      simp only [hf2, Option.map_none']
      apply iff_of_false (by simp)
      intro h
      obtain ⟨e, he, heq⟩ := h
      have hne := List.find?_eq_none.mp hf2 e he
      simp only [beq_iff_eq] at hne
      exact hne heq

/-- **C7 (amended).** Both normalization implementations strip leading zeros
per dot-separated segment (`'01.002'` normalizes to `'1.2'` in both); the
instruction parser's `_normalize_number` additionally strips trailing dots,
while the section-index `_normalize_section_number` does not; and the
section-index lookup treats two section numbers as equal exactly when their
`_normalize_section_number` forms are equal. -/
theorem c7_amended_normalization :
    normalize_section_number "01.002".data = "1.2".data
    ∧ normalize_number "01.002".data = "1.2".data
    ∧ normalize_number "1.4.1.".data = "1.4.1".data
    ∧ ∀ (idx : List (List Char × Sec)) (n : List Char),
        (get_section_by_number idx n).isSome
          ↔ ∃ e ∈ idx, normalize_section_number e.1 = normalize_section_number n :=
  ⟨by decide, by decide, by decide, c7_lookup_iff⟩

/-! ### `BidAnswerMatcher` — the tiered matching engine (claims C1, C2, C10)

Collaborator behaviour (database queries, `difflib.SequenceMatcher` ratios,
LLM completions, web search) is modelled as oracle fields of a
`MatcherEnv`; `Except.error ()` models a raised exception.  The username and
knowledge-document filters only shape the SQL sent to the collaborator, so
they are absorbed into the query oracles. -/

/-- `_extract_keywords`'s token class `[一-龥a-zA-Z0-9]`. -/
def kwCharOk (c : Char) : Bool :=
  (0x4e00 ≤ c.toNat && c.toNat ≤ 0x9fa5) || c.isAlpha || c.isDigit

/-- Maximal runs of keyword characters (`re.findall` of the class). -/
def tokenRunsAux : Nat → List Char → List (List Char)
  | 0, _ => []
  | _, [] => []
  | fuel + 1, c :: rest =>
    if kwCharOk c then
      (c :: rest.takeWhile kwCharOk) :: tokenRunsAux fuel (rest.dropWhile kwCharOk)
    else tokenRunsAux fuel rest

def tokenRuns (l : List Char) : List (List Char) := tokenRunsAux l.length l

def STOPWORDS : List (List Char) :=
  ["的".data, "是".data, "在".data, "有".data, "和".data, "与".data, "了".data,
   "这".data, "那".data, "什么".data, "怎么".data, "如何".data, "为什么".data,
   "需要".data, "要求".data, "功能".data, "支持".data, "应".data, "能".data,
   "可以".data, "进行".data, "具有".data, "提供".data, "包括".data, "等".data,
   "及".data]

/-- `BidAnswerMatcher._extract_keywords`. -/
def extract_keywords (t : List Char) : List (List Char) :=
  ((tokenRuns t).filter
    (fun w => !STOPWORDS.contains w && decide (1 < w.length))).take 15

/-- A chapter row returned by the candidate queries. -/
structure Candidate where
  chapterId : Int
  chapterTitle : List Char
  content : List Char
  filename : List Char
deriving DecidableEq

structure WebHit where
  title : List Char
  url : List Char
  snippet : List Char
deriving DecidableEq

/-- The fields the matcher reads out of the semantic tier's parsed JSON
reply (`best_match_index`, `relevance_score`, `answer_summary`, with the
`dict.get` defaults already applied). -/
structure SemReply where
  bestMatchIndex : Int
  relevanceScore : ℚ
  answerSummary : List Char

structure PathEntry where
  id : Int
  level : Int
  title : List Char
deriving DecidableEq

structure ImgInfo where
  id : Int
  imageUrl : List Char
deriving DecidableEq

/-- The source union of a match result. -/
inductive MatchSource where
  | document (filename : List Char) (chapterId : Int) (chapterTitle : List Char)
      (path : List PathEntry) (images : List ImgInfo)
  | web (hits : List WebHit)
  | llm

structure MatchResult where
  answer : List Char
  matchType : List Char
  confidence : ℚ
  source : Option MatchSource

/-- Collaborator oracles of one `match_requirement` call.  `titleSim` and
`contentSim` are the `difflib.SequenceMatcher(...).ratio()` values of a
candidate against the (cleaned, truncated) requirement text; the DB
image/path helpers catch their own exceptions and so appear as total
functions. -/
structure MatcherEnv where
  exactQuery : Except Unit (List Candidate)
  titleSim : Candidate → ℚ
  contentSim : Candidate → ℚ
  hasLLM : Bool
  semanticQuery : Except Unit (List Candidate)
  semanticLLM : Except Unit (Option SemReply)
  hasWeb : Bool
  webSearch : Except Unit (List WebHit)
  webLLM : Except Unit (List Char)
  llmGen : Except Unit (List Char)
  chapterPath : Int → List PathEntry
  chapterImages : Int → List ImgInfo
  imagesFromContent : List (List Char) → List ImgInfo

/-- Drop an expected literal prefix. -/
def dropPre : List Char → List Char → Option (List Char)
  | [], cs => some cs
  | _ :: _, [] => none
  | p :: ps, c :: cs => if p = c then dropPre ps cs else none

/-- After the digit group: the two closing braces, then the rest. -/
def tokTail (ds : List Char) : List Char → Option (List Char × List Char)
  | c1 :: c2 :: rem => if c1 = '}' ∧ c2 = '}' then some (ds, rem) else none
  | _ => none

/-- Try to read `pre ++ digits+ ++ "}}"` at the head of the input, returning
the digit group and the rest. -/
def tryTok (pre cs : List Char) : Option (List Char × List Char) :=
  match dropPre pre cs with
  | none => none
  | some rest =>
    let ds := rest.takeWhile Char.isDigit
    if ds.isEmpty then none
    else tokTail ds (rest.dropWhile Char.isDigit)

/-- Left-to-right non-overlapping scan for `pre ++ (\d+) ++ "}}"` tokens
(the common shape of `re.findall` on the two placeholder patterns);
the fuel argument is the input length, which every step strictly consumes. -/
def scanToksAux (pre : List Char) : Nat → List Char → List (List Char)
  | 0, _ => []
  | _, [] => []
  | fuel + 1, c :: rest =>
    match tryTok pre (c :: rest) with
    | some (ds, rem) => ds :: scanToksAux pre fuel rem
    | none => scanToksAux pre fuel rest

def scanToks (pre l : List Char) : List (List Char) := scanToksAux pre l.length l

/-- The `{{IMAGE_ID_` placeholder prefix (braces written as escapes). -/
def imageIdPre : List Char := "\x7b\x7bIMAGE_ID_".data

/-- `re.findall(r'\{\{IMAGE_ID_(\d+)\}\}', content)` from
`_get_images_from_content`. -/
def findImageIds (content : List Char) : List (List Char) := scanToks imageIdPre content

/-- Image resolution of an accepted document match: ids referenced in the
winning content first (set-dedup and DB lookup absorbed into the oracle),
else the images bound to the winning chapter. -/
def matchImages (env : MatcherEnv) (bm : Candidate) : List ImgInfo :=
  let ids := findImageIds bm.content
  let imgs := if ids.isEmpty then [] else env.imagesFromContent ids
  if imgs.isEmpty then env.chapterImages bm.chapterId else imgs

/-- `BidAnswerMatcher._exact_match`. -/
def exact_match (env : MatcherEnv) (reqText : List Char) : Option MatchResult :=
  let keywords := extract_keywords reqText
  if keywords.isEmpty then none
  else
    match env.exactQuery with
    | .error _ => none
    | .ok candidates =>
      if candidates.isEmpty then none
      else
        let best := candidates.foldl
          (fun acc c =>
            let s := max (env.titleSim c * (6 / 5)) (env.contentSim c)
            if acc.1 < s then (s, some c) else acc)
          ((0 : ℚ), (none : Option Candidate))
        match best.2 with
        | none => none
        | some bm =>
          if (3 / 5 : ℚ) ≤ best.1 then
            some { answer := bm.content
                   matchType :=
                     if (9 / 10 : ℚ) ≤ best.1 then "exact".data else "semantic".data
                   confidence := min best.1 1
                   source := some (.document bm.filename bm.chapterId bm.chapterTitle
                     (env.chapterPath bm.chapterId) (matchImages env bm)) }
          else none

/-- `BidAnswerMatcher._semantic_match`. -/
def semantic_match (env : MatcherEnv) (reqText : List Char) : Option MatchResult :=
  if !env.hasLLM then none
  else
    match env.semanticQuery with
    | .error _ => none
    | .ok candidates =>
      if candidates.isEmpty then none
      else
        match env.semanticLLM with
        | .error _ => none
        | .ok none => none
        | .ok (some reply) =>
          if 0 < reply.bestMatchIndex ∧ (1 / 2 : ℚ) ≤ reply.relevanceScore
              ∧ reply.bestMatchIndex ≤ (candidates.length : Int) then
            match candidates[(reply.bestMatchIndex - 1).toNat]? with
            | none => none
            | some bm =>
              some { answer :=
                       if reply.answerSummary.isEmpty then bm.content
                       else reply.answerSummary
                     matchType := "semantic".data
                     confidence := min reply.relevanceScore 1
                     source := some (.document bm.filename bm.chapterId bm.chapterTitle
                       (env.chapterPath bm.chapterId) (matchImages env bm)) }
          else none

/-- The no-LLM summary answer of the web tier:
`'根据网络搜索结果：\n' + '\n'.join('• …: …' for top-3 results)`. -/
def webSummaryResult (results : List WebHit) : MatchResult :=
  { answer := "根据网络搜索结果：\n".data
      ++ joinSep ['\n']
        ((results.take 3).map (fun r => "• ".data ++ r.title ++ ": ".data ++ r.snippet))
    matchType := "web".data
    confidence := 2 / 5
    source := some (.web results) }

/-- `BidAnswerMatcher._web_search_match`. -/
def web_search_match (env : MatcherEnv) (reqText : List Char) : Option MatchResult :=
  if !env.hasWeb then none
  else
    match env.webSearch with
    | .error _ => none
    | .ok results =>
      if results.isEmpty then none
      else
        if env.hasLLM then
          match env.webLLM with
          | .ok content =>
            some { answer := content
                   matchType := "web".data
                   confidence := 1 / 2
                   source := some (.web (results.take 3)) }
          | .error _ => some (webSummaryResult results)
        else some (webSummaryResult results)

/-- `BidAnswerMatcher._llm_generate`. -/
def llm_generate (env : MatcherEnv) (reqText : List Char) : Option MatchResult :=
  if !env.hasLLM then none
  else
    match env.llmGen with
    | .error _ => none
    | .ok content =>
      some { answer := content
             matchType := "llm_generated".data
             confidence := 3 / 10
             source := some .llm }

/-- `BidAnswerMatcher.match_requirement`: the empty-requirement early
return followed by the four-tier fallback chain. -/
def match_requirement (env : MatcherEnv) (reqText : List Char) (enableWebSearch : Bool) :
    MatchResult :=
  if reqText.isEmpty || (pyStrip reqText).isEmpty then
    { answer := "技术要求内容为空".data, matchType := "none".data,
      confidence := 0, source := none }
  else
    match exact_match env reqText with
    | some r => r
    | none =>
      match (if env.hasLLM then semantic_match env reqText else none) with
      | some r => r
      | none =>
        match (if enableWebSearch && env.hasWeb then web_search_match env reqText
               else none) with
        | some r => r
        | none =>
          match (if env.hasLLM then llm_generate env reqText else none) with
          | some r => r
          | none =>
            { answer := "未能找到相关答案，请手动补充。".data,
              matchType := "none".data, confidence := 0, source := none }

theorem exact_match_shape (env : MatcherEnv) (t : List Char) (r : MatchResult)
    (h : exact_match env t = some r) :
    (r.matchType = "exact".data ∧ (3 / 5 : ℚ) ≤ r.confidence ∧ r.confidence ≤ 1)
    ∨ r.matchType = "semantic".data := by
  simp only [exact_match] at h
  repeat' split at h
  all_goals try exact Option.noConfusion h
  all_goals injection h with h2
  all_goals subst h2
  all_goals
    (try split) <;>
      first
        | exact Or.inr rfl
        | exact Or.inl ⟨rfl, le_min (by linarith) (by norm_num), min_le_right _ _⟩

theorem semantic_match_shape (env : MatcherEnv) (t : List Char) (r : MatchResult)
    (h : semantic_match env t = some r) : r.matchType = "semantic".data := by
  simp only [semantic_match] at h
  repeat' split at h
  all_goals try exact Option.noConfusion h
  all_goals injection h with h2
  all_goals subst h2
  all_goals rfl

theorem web_search_match_shape (env : MatcherEnv) (t : List Char) (r : MatchResult)
    (h : web_search_match env t = some r) :
    r.matchType = "web".data ∧ (r.confidence = 2 / 5 ∨ r.confidence = 1 / 2) := by
  simp only [web_search_match, webSummaryResult] at h
  repeat' split at h
  all_goals try exact Option.noConfusion h
  all_goals injection h with h2
  all_goals subst h2
  all_goals first
    | exact ⟨rfl, Or.inr rfl⟩
    | exact ⟨rfl, Or.inl rfl⟩

theorem llm_generate_shape (env : MatcherEnv) (t : List Char) (r : MatchResult)
    (h : llm_generate env t = some r) :
    r.matchType = "llm_generated".data ∧ r.confidence = 3 / 10 := by
  simp only [llm_generate] at h
  repeat' split at h
  all_goals try exact Option.noConfusion h
  all_goals injection h with h2
  all_goals subst h2
  all_goals exact ⟨rfl, rfl⟩

theorem opt_if_some {b : Bool} {x : Option MatchResult} {r : MatchResult}
    (h : (if b then x else none) = some r) : x = some r := by
  cases b
  · exact absurd h (by simp)
  · simpa using h

/-- **C1.** For every requirement text and every collaborator configuration,
the `MatchResult` returned by `match_requirement` obeys the per-match-type
confidence contract: `exact` implies confidence in `[0.6, 1.0]`; `web`
implies confidence `0.4` or `0.5`; `llm_generated` implies confidence `0.3`;
and `none` implies confidence `0`. -/
theorem c1_confidence_contract (env : MatcherEnv) (t : List Char) (w : Bool) :
    ((match_requirement env t w).matchType = "exact".data →
      (3 / 5 : ℚ) ≤ (match_requirement env t w).confidence
        ∧ (match_requirement env t w).confidence ≤ 1)
    ∧ ((match_requirement env t w).matchType = "web".data →
      (match_requirement env t w).confidence = 2 / 5
        ∨ (match_requirement env t w).confidence = 1 / 2)
    ∧ ((match_requirement env t w).matchType = "llm_generated".data →
      (match_requirement env t w).confidence = 3 / 10)
    ∧ ((match_requirement env t w).matchType = "none".data →
      (match_requirement env t w).confidence = 0) := by
  unfold match_requirement
  split
  · exact ⟨fun h => absurd h (by decide), fun h => absurd h (by decide),
      fun h => absurd h (by decide), fun _ => rfl⟩
  · split
    · rename_i r hE
      rcases exact_match_shape env t r hE with ⟨hm, hb⟩ | hm
      · exact ⟨fun _ => hb,
          fun h => absurd (hm.symm.trans h) (by decide),
          fun h => absurd (hm.symm.trans h) (by decide),
          fun h => absurd (hm.symm.trans h) (by decide)⟩
      · exact ⟨fun h => absurd (hm.symm.trans h) (by decide),
          fun h => absurd (hm.symm.trans h) (by decide),
          fun h => absurd (hm.symm.trans h) (by decide),
          fun h => absurd (hm.symm.trans h) (by decide)⟩
    · split
      · rename_i r2 hS
        have hm := semantic_match_shape env t r2 (opt_if_some hS)
        exact ⟨fun h => absurd (hm.symm.trans h) (by decide),
          fun h => absurd (hm.symm.trans h) (by decide),
          fun h => absurd (hm.symm.trans h) (by decide),
          fun h => absurd (hm.symm.trans h) (by decide)⟩
      · split
        · rename_i r3 hW
          obtain ⟨hm, hc⟩ := web_search_match_shape env t r3 (opt_if_some hW)
          exact ⟨fun h => absurd (hm.symm.trans h) (by decide),
            fun _ => hc,
            fun h => absurd (hm.symm.trans h) (by decide),
            fun h => absurd (hm.symm.trans h) (by decide)⟩
        · split
          · rename_i r4 hL
            obtain ⟨hm, hc⟩ := llm_generate_shape env t r4 (opt_if_some hL)
            exact ⟨fun h => absurd (hm.symm.trans h) (by decide),
              fun h => absurd (hm.symm.trans h) (by decide),
              fun _ => hc,
              fun h => absurd (hm.symm.trans h) (by decide)⟩
          · exact ⟨fun h => absurd h (by decide), fun h => absurd h (by decide),
              fun h => absurd h (by decide), fun _ => rfl⟩

/-- A collaborator environment with nothing configured (used by witnesses). -/
def envEmpty : MatcherEnv :=
  { exactQuery := .ok [], titleSim := fun _ => 0, contentSim := fun _ => 0,
    hasLLM := false, semanticQuery := .ok [], semanticLLM := .ok none,
    hasWeb := false, webSearch := .ok [], webLLM := .error (), llmGen := .error (),
    chapterPath := fun _ => [], chapterImages := fun _ => [],
    imagesFromContent := fun _ => [] }

theorem c1_confidence_contract_witness :
    (match_requirement envEmpty "".data true).confidence = 0 :=
  (c1_confidence_contract envEmpty "".data true).2.2.2 rfl

/-- **C10.** A requirement text that is empty or whitespace-only makes
`match_requirement` return immediately with the static answer
`技术要求内容为空`, match type `none`, confidence `0` and no source — for
every collaborator environment (hence without consulting the knowledge base,
the LLM or the web search), every username/knowledge-document filter
(absorbed in the environment's query oracles) and both web-search flags. -/
theorem c10_empty_requirement (env : MatcherEnv) (t : List Char) (w : Bool)
    (h : pyStrip t = []) :
    match_requirement env t w
      = { answer := "技术要求内容为空".data, matchType := "none".data,
          confidence := 0, source := none } := by
  unfold match_requirement
  have hb : (t.isEmpty || (pyStrip t).isEmpty) = true := by
    rw [h]
    simp
  rw [if_pos hb]

theorem c10_empty_requirement_witness :
    match_requirement envEmpty " \t ".data true
      = { answer := "技术要求内容为空".data, matchType := "none".data,
          confidence := 0, source := none } :=
  c10_empty_requirement envEmpty " \t ".data true (by decide)

def c2Hit : WebHit := { title := "T".data, url := "u".data, snippet := "S".data }

/-- Environment of the C2 counterexample: nothing matches in the knowledge
base, the web search returns one hit, the LLM summarisation of that hit
raises, and direct LLM generation would succeed. -/
def c2Env : MatcherEnv :=
  { envEmpty with
    hasLLM := true
    hasWeb := true
    webSearch := .ok [c2Hit]
    webLLM := .error ()
    llmGen := .ok "G".data }

/-- **C2 (counterexample).** The claim says a collaborator exception raised
inside any one tier is treated as that tier producing no result, so that the
chain continues.  With the web tier's summarisation LLM call raising
(`c2Env.webLLM = error`), the chain would then have to continue to direct
LLM generation (`llm_generated`, as it does when the web tier is disabled,
second conjunct) — but the code instead returns a web-tier result with
confidence `0.4` (first conjunct): the exception degrades the tier, it does
not void it. -/
theorem c2_counterexample :
    ((match_requirement c2Env "数据库".data true).matchType = "web".data
      ∧ (match_requirement c2Env "数据库".data true).confidence = 2 / 5)
    ∧ (match_requirement { c2Env with hasWeb := false } "数据库".data true).matchType
        = "llm_generated".data :=
  ⟨⟨rfl, rfl⟩, rfl⟩

theorem cond_false_of_strip (t : List Char) (hnu : (pyStrip t).isEmpty = false) :
    (t.isEmpty || (pyStrip t).isEmpty) = false := by
  cases t with
  | nil => simp [pyStrip, rdw] at hnu
  | cons c cs => simp [hnu]

/-- **C2 (amended).** `match_requirement` evaluates its tiers in the fixed
order exact, semantic, web, direct LLM generation (conjuncts 1-4); an
exception from the knowledge-base queries, the semantic LLM call, the web
search call or the generation call is caught and treated as that tier
producing no result (conjuncts 5-9); an exception from the LLM
summarisation *inside* the web tier instead degrades the web tier to the
static snippet summary with confidence 0.4 — the tier still produces a
result (conjunct 10); and only when every tier produces no result does the
call return match type `none`, confidence `0` and the static answer
`未能找到相关答案，请手动补充。` (conjunct 11). -/
theorem c2_amended_tier_chain (env : MatcherEnv) (t : List Char) (w : Bool) (e : Unit)
    (hnu : (pyStrip t).isEmpty = false) :
    (∀ r, exact_match env t = some r → match_requirement env t w = r)
    ∧ (∀ r, exact_match env t = none → env.hasLLM = true
        → semantic_match env t = some r → match_requirement env t w = r)
    ∧ (∀ r, exact_match env t = none
        → (if env.hasLLM then semantic_match env t else none) = none
        → (w && env.hasWeb) = true → web_search_match env t = some r
        → match_requirement env t w = r)
    ∧ (∀ r, exact_match env t = none
        → (if env.hasLLM then semantic_match env t else none) = none
        → (if w && env.hasWeb then web_search_match env t else none) = none
        → env.hasLLM = true → llm_generate env t = some r
        → match_requirement env t w = r)
    ∧ (env.exactQuery = .error e → exact_match env t = none)
    ∧ (env.semanticQuery = .error e → semantic_match env t = none)
    ∧ (env.semanticLLM = .error e → semantic_match env t = none)
    ∧ (env.webSearch = .error e → web_search_match env t = none)
    ∧ (env.llmGen = .error e → llm_generate env t = none)
    ∧ (∀ results, env.hasWeb = true → env.webSearch = .ok results → results ≠ []
        → env.hasLLM = true → env.webLLM = .error e
        → web_search_match env t = some (webSummaryResult results))
    ∧ (exact_match env t = none
        → (if env.hasLLM then semantic_match env t else none) = none
        → (if w && env.hasWeb then web_search_match env t else none) = none
        → (if env.hasLLM then llm_generate env t else none) = none
        → match_requirement env t w
            = { answer := "未能找到相关答案，请手动补充。".data,
                matchType := "none".data, confidence := 0, source := none }) := by
  have hcond := cond_false_of_strip t hnu
  refine ⟨?_, ?_, ?_, ?_, ?_, ?_, ?_, ?_, ?_, ?_, ?_⟩
  · intro r hE
    simp only [match_requirement, hcond, Bool.false_eq_true, if_false, hE]
  · intro r hE hL hS
    simp only [match_requirement, hcond, Bool.false_eq_true, if_false, hE, hL, if_true, hS]
  · intro r hE hS hw hW
    simp only [match_requirement, hcond, Bool.false_eq_true, if_false, hE, hS, hw,
      if_true, hW]
  · intro r hE hS hW hL hG
    simp only [match_requirement, hcond, Bool.false_eq_true, if_false, hE, hS, hW]
    simp only [hL, if_true, hG]
  · intro hq
    simp only [exact_match, hq, ite_self]
  · intro hq
    simp only [semantic_match, hq, ite_self]
  · intro hq
    cases hsq : env.semanticQuery with
    | error e2 => simp only [semantic_match, hsq, ite_self]
    | ok cs => simp only [semantic_match, hsq, hq, ite_self]
  · intro hq
    simp only [web_search_match, hq, ite_self]
  · intro hq
    simp only [llm_generate, hq, ite_self]
  · intro results hWb hq hne2 hL hwl
    have hres : results.isEmpty = false := by
      cases results with
      | nil => exact absurd rfl hne2
      | cons a b => rfl
    simp only [web_search_match, hWb, Bool.not_true, Bool.false_eq_true, if_false, hq,
      hres, hL, if_true, hwl]
  · intro hE hS hW hL
    simp only [match_requirement, hcond, Bool.false_eq_true, if_false, hE, hS, hW, hL]

theorem c2_amended_tier_chain_witness :
    match_requirement envEmpty "数据库兼容性".data true
      = { answer := "未能找到相关答案，请手动补充。".data,
          matchType := "none".data, confidence := 0, source := none } :=
  (c2_amended_tier_chain envEmpty "数据库兼容性".data true () (by decide)).2.2.2.2.2.2.2.2.2.2
    rfl rfl rfl rfl

/-! ### `BidAnswerGenerator.export_to_word` — grouping and ordering (claim C9)

Only the pure grouping/ordering core is embedded (the docx write-out is I/O).
A result row is the dict built by `answer_requirements`; an absent
`section_number` key is modelled as `none` (the `r.get('section_number',
'其他')` default fires only for a missing key). -/

structure ExpResult where
  sectionNumber : Option (List Char)
  sectionTitle : Option (List Char)
  requirementIndex : CellV
  requirement : List Char
  spec : List Char
  answer : List Char
  matchType : List Char
  confidence : ℚ

/-- `r.get('section_number', '其他')`. -/
def keyOf (r : ExpResult) : List Char := r.sectionNumber.getD "其他".data

/-- One grouping step of the `grouped_results` dict build: append the result
to its key's item list, creating the group (with the first result's
section title) on a new key. -/
def groupAdd : List (List Char × List Char × List ExpResult) → ExpResult →
    List (List Char × List Char × List ExpResult)
  | [], r => [(keyOf r, r.sectionTitle.getD [], [r])]
  | g :: gs, r =>
    if g.1 = keyOf r then (g.1, g.2.1, g.2.2 ++ [r]) :: gs
    else g :: groupAdd gs r

/-- One sort-key segment: `int(p) if p.isdigit() else p`. -/
inductive Seg where
  | n (v : Nat)
  | s (v : List Char)
deriving DecidableEq

/-- Python `str.isdigit()` (ASCII digits; the superscript/Unicode-digit
corner where `isdigit` holds but `int` raises does not arise here). -/
def pyIsDigitStr (p : List Char) : Bool := !p.isEmpty && p.all Char.isDigit

/-- `[int(p) if p.isdigit() else p for p in x.split('.')]`. -/
def sortKey (x : List Char) : List Seg :=
  (splitOnChar '.' x).map (fun p => if pyIsDigitStr p then .n (valOf p) else .s p)

/-- Lexicographic string comparison, as Python `str < str`
(code-point order). -/
def listCharLt : List Char → List Char → Bool
  | [], [] => false
  | [], _ :: _ => true
  | _ :: _, [] => false
  | a :: as, b :: bs => if a = b then listCharLt as bs else decide (a < b)

/-- Python `seg1 < seg2` for same-kind segments; `error` is the `TypeError`
raised on an int/str comparison. -/
def segLt : Seg → Seg → Except Unit Bool
  | .n a, .n b => .ok (decide (a < b))
  | .s a, .s b => .ok (listCharLt a b)
  | _, _ => .error ()

/-- Python list comparison for sorting: skip `==` positions, then `<` on the
first difference (which raises on mixed kinds), shorter prefix first. -/
def keyCmpOk : List Seg → List Seg → Except Unit Bool
  | [], [] => .ok false
  | [], _ :: _ => .ok true
  | _ :: _, [] => .ok false
  | a :: as, b :: bs => if a = b then keyCmpOk as bs else segLt a b

/-- Whether Python may compare the two keys without a `TypeError`. -/
def keyComparable (x y : List Seg) : Bool :=
  match keyCmpOk x y with
  | .ok _ => true
  | .error _ => false

/-- Total tie-broken order used to *implement* the model's sort; on
comparable pairs it coincides with Python's comparison (mixed-kind pairs
never reach the sort in the error-free case). -/
def segLtTotal : Seg → Seg → Bool
  | .n a, .n b => decide (a < b)
  | .s a, .s b => listCharLt a b
  | .n _, .s _ => true
  | .s _, .n _ => false

def lexLe : List Seg → List Seg → Bool
  | [], _ => true
  | _ :: _, [] => false
  | a :: as, b :: bs => if a = b then lexLe as bs else segLtTotal a b

def keyLe (x y : List Char) : Bool := lexLe (sortKey x) (sortKey y)

/-- The model of `sorted(grouped_results.keys(), key=...)`: raises iff some
pair of keys mixes an int segment with a str segment at the deciding
position, else the stable sort by the key order (CPython's Timsort is
stable, and on an all-comparable list every comparison it performs agrees
with this order). -/
def pySortedKeys (ks : List (List Char)) : Except Unit (List (List Char)) :=
  if ks.all (fun a => ks.all (fun b => keyComparable (sortKey a) (sortKey b))) then
    .ok (ks.mergeSort keyLe)
  else .error ()

/-- The grouping-and-ordering core of `BidAnswerGenerator.export_to_word`
(lines 1731-1746): group results by section number, sort the keys with the
numeral-aware key, and emit the groups in sorted-key order. -/
def export_grouping (results : List ExpResult) :
    Except Unit (List (List Char × List Char × List ExpResult)) :=
  let grouped := results.foldl groupAdd []
  match pySortedKeys (grouped.map (fun g => g.1)) with
  | .error e => .error e
  | .ok ks =>
    .ok (ks.filterMap (fun k => grouped.find? (fun g => g.1 == k)))

def c9NoSection : ExpResult :=
  { sectionNumber := none, sectionTitle := none, requirementIndex := .i 1,
    requirement := "r1".data, spec := [], answer := "a1".data,
    matchType := "none".data, confidence := 0 }

def c9Numbered : ExpResult :=
  { c9NoSection with sectionNumber := some "1.2".data, requirement := "r2".data }

/-- **C9 (counterexample).** The claim says `export_to_word` groups results
without a section number under `其他` *and* writes the groups in ascending
numeral-aware key order.  With one numberless result (key `其他`, sort key
`['其他']`) next to one numbered result (key `1.2`, sort key `[1, 2]`),
Python's `sorted` must compare an `int` with a `str` and raises `TypeError`
— nothing is written at all. -/
theorem c9_counterexample :
    export_grouping [c9NoSection, c9Numbered] = Except.error () := rfl

theorem listCharLt_trans (x : List Char) : ∀ y z, listCharLt x y = true →
    listCharLt y z = true → listCharLt x z = true := by
  induction x with
  | nil =>
    intro y z h1 h2
    cases y with
    | nil => exact absurd h1 (by simp [listCharLt])
    | cons b bs =>
      cases z with
      | nil => exact absurd h2 (by simp [listCharLt])
      | cons c cs => rfl
  | cons a as ih =>
    intro y z h1 h2
    cases y with
    | nil => exact absurd h1 (by simp [listCharLt])
    | cons b bs =>
      cases z with
      | nil => exact absurd h2 (by simp [listCharLt])
      | cons c cs =>
        simp only [listCharLt] at h1 h2 ⊢
        by_cases hab : a = b
        · subst hab
          rw [if_pos rfl] at h1
          by_cases hac : a = c
          · subst hac
            rw [if_pos rfl] at h2 ⊢
            exact ih bs cs h1 h2
          · rw [if_neg hac] at h2 ⊢
            exact h2
        · rw [if_neg hab] at h1
          by_cases hbc : b = c
          · subst hbc
            rw [if_neg hab]
            exact h1
          · rw [if_neg hbc] at h2
            have hlt : a < c := lt_trans (of_decide_eq_true h1) (of_decide_eq_true h2)
            have hac : a ≠ c := ne_of_lt hlt
            rw [if_neg hac]
            exact decide_eq_true hlt

theorem listCharLt_asymm (x : List Char) : ∀ y, listCharLt x y = true →
    listCharLt y x = false := by
  induction x with
  | nil =>
    intro y h1
    cases y with
    | nil => exact absurd h1 (by simp [listCharLt])
    | cons b bs => rfl
  | cons a as ih =>
    intro y h1
    cases y with
    | nil => exact absurd h1 (by simp [listCharLt])
    | cons b bs =>
      simp only [listCharLt] at h1 ⊢
      by_cases hab : a = b
      · subst hab
        rw [if_pos rfl] at h1 ⊢
        exact ih bs h1
      · rw [if_neg hab] at h1
        rw [if_neg (Ne.symm hab)]
        exact decide_eq_false (not_lt_of_gt (of_decide_eq_true h1))

theorem listCharLt_total_ne (x : List Char) : ∀ y, x ≠ y →
    (listCharLt x y || listCharLt y x) = true := by
  induction x with
  | nil =>
    intro y hne
    cases y with
    | nil => exact absurd rfl hne
    | cons b bs => rfl
  | cons a as ih =>
    intro y hne
    cases y with
    | nil => rfl
    | cons b bs =>
      simp only [listCharLt]
      by_cases hab : a = b
      · subst hab
        rw [if_pos rfl, if_pos rfl]
        exact ih bs (by intro h; exact hne (by rw [h]))
      · rw [if_neg hab, if_neg (Ne.symm hab)]
        rcases lt_or_gt_of_ne hab with h | h
        · simp [h]
        · simp [h]

theorem segLtTotal_trans (a b c : Seg) (h1 : segLtTotal a b = true)
    (h2 : segLtTotal b c = true) : segLtTotal a c = true := by
  cases a <;> cases b <;> cases c <;> simp only [segLtTotal] at h1 h2 ⊢
  all_goals
    first
      | rfl
      | exact (Bool.false_ne_true h1).elim
      | exact (Bool.false_ne_true h2).elim
      | exact decide_eq_true (lt_trans (of_decide_eq_true h1) (of_decide_eq_true h2))
      | exact listCharLt_trans _ _ _ h1 h2

theorem segLtTotal_asymm (a b : Seg) (h1 : segLtTotal a b = true) :
    segLtTotal b a = false := by
  cases a <;> cases b <;> simp only [segLtTotal] at h1 ⊢
  all_goals
    first
      | rfl
      | exact (Bool.false_ne_true h1).elim
      | exact decide_eq_false (lt_asymm (of_decide_eq_true h1))
      | exact listCharLt_asymm _ _ h1

theorem segLtTotal_total_ne (a b : Seg) (hne : a ≠ b) :
    (segLtTotal a b || segLtTotal b a) = true := by
  cases a <;> cases b <;> simp only [segLtTotal]
  · rename_i x y
    have hxy : x ≠ y := by
      intro h
      exact hne (by rw [h])
    rcases lt_or_gt_of_ne hxy with h | h
    · simp [h]
    · simp [h]
  · rfl
  · rfl
  · rename_i x y
    have hxy : x ≠ y := by
      intro h
      exact hne (by rw [h])
    simpa using listCharLt_total_ne x y hxy

theorem lexLe_total (x y : List Seg) : (lexLe x y || lexLe y x) = true := by
  induction x generalizing y with
  | nil => rfl
  | cons a as ih =>
    cases y with
    | nil => rfl
    | cons b bs =>
      simp only [lexLe]
      by_cases hab : a = b
      · subst hab
        rw [if_pos rfl, if_pos rfl]
        exact ih bs
      · rw [if_neg hab, if_neg (Ne.symm hab)]
        exact segLtTotal_total_ne a b hab

theorem lexLe_trans (x : List Seg) : ∀ y z, lexLe x y = true → lexLe y z = true →
    lexLe x z = true := by
  induction x with
  | nil => intro y z _ _; rfl
  | cons a as ih =>
    intro y z h1 h2
    cases y with
    | nil => exact absurd h1 (by simp [lexLe])
    | cons b bs =>
      cases z with
      | nil => exact absurd h2 (by simp [lexLe])
      | cons c cs =>
        simp only [lexLe] at h1 h2 ⊢
        by_cases hab : a = b
        · subst hab
          rw [if_pos rfl] at h1
          by_cases hac : a = c
          · subst hac
            rw [if_pos rfl] at h2 ⊢
            exact ih bs cs h1 h2
          · rw [if_neg hac] at h2 ⊢
            exact h2
        · rw [if_neg hab] at h1
          by_cases hbc : b = c
          · subst hbc
            rw [if_neg hab]
            exact h1
          · rw [if_neg hbc] at h2
            have hlt : segLtTotal a c = true := segLtTotal_trans a b c h1 h2
            have hac : a ≠ c := by
              intro h
              subst h
              rw [segLtTotal_asymm a b h1] at h2
              exact Bool.false_ne_true h2
            rw [if_neg hac]
            exact hlt

theorem keyLe_total (x y : List Char) : (keyLe x y || keyLe y x) = true :=
  lexLe_total (sortKey x) (sortKey y)

theorem keyLe_trans (x y z : List Char) (h1 : keyLe x y = true)
    (h2 : keyLe y z = true) : keyLe x z = true :=
  lexLe_trans (sortKey x) (sortKey y) (sortKey z) h1 h2

/-- Items stored under key `k` (first-match, as dict lookup). -/
def grpItems : List (List Char × List Char × List ExpResult) → List Char →
    List ExpResult
  | [], _ => []
  | g :: gs, k => if g.1 = k then g.2.2 else grpItems gs k

theorem grpItems_groupAdd (acc : List (List Char × List Char × List ExpResult))
    (r : ExpResult) (k : List Char) :
    grpItems (groupAdd acc r) k
      = grpItems acc k ++ (if keyOf r = k then [r] else []) := by
  induction acc with
  | nil =>
    by_cases h : keyOf r = k
    · simp [groupAdd, grpItems, h]
    · simp [groupAdd, grpItems, h]
  | cons g gs ih =>
    simp only [groupAdd]
    by_cases hg : g.1 = keyOf r
    · rw [if_pos hg]
      simp only [grpItems]
      by_cases hk : g.1 = k
      · rw [if_pos hk, if_pos hk, if_pos (hg.symm.trans hk)]
      · rw [if_neg hk, if_neg hk, if_neg (fun h => hk (hg.trans h))]
        simp [grpItems]
    · rw [if_neg hg]
      simp only [grpItems]
      by_cases hk : g.1 = k
      · rw [if_pos hk, if_pos hk, if_neg (fun h => hg (hk.trans h.symm))]
        simp
      · rw [if_neg hk, if_neg hk]
        exact ih

theorem grpItems_foldl (rs : List ExpResult)
    (acc : List (List Char × List Char × List ExpResult)) (k : List Char) :
    grpItems (rs.foldl groupAdd acc) k
      = grpItems acc k ++ rs.filter (fun r => keyOf r == k) := by
  induction rs generalizing acc with
  | nil => simp
  | cons r rs ih =>
    simp only [List.foldl_cons, List.filter_cons]
    rw [ih (groupAdd acc r), grpItems_groupAdd]
    by_cases h : keyOf r = k
    · simp [h]
    · simp [h]

theorem keys_groupAdd (acc : List (List Char × List Char × List ExpResult))
    (r : ExpResult) (k : List Char) :
    (k ∈ (groupAdd acc r).map (fun g => g.1))
      ↔ (k ∈ acc.map (fun g => g.1) ∨ k = keyOf r) := by
  induction acc with
  | nil => simp [groupAdd]
  | cons g gs ih =>
    simp only [groupAdd]
    by_cases hg : g.1 = keyOf r
    · rw [if_pos hg]
      simp only [List.map_cons, List.mem_cons]
      constructor
      · intro h
        rcases h with h | h
        · exact Or.inl (Or.inl h)
        · exact Or.inl (Or.inr h)
      · intro h
        rcases h with (h | h) | h
        · exact Or.inl h
        · exact Or.inr h
        · exact Or.inl (hg ▸ h)
    · rw [if_neg hg]
      simp only [List.map_cons, List.mem_cons, ih]
      tauto

theorem keys_foldl (rs : List ExpResult)
    (acc : List (List Char × List Char × List ExpResult)) (k : List Char) :
    (k ∈ (rs.foldl groupAdd acc).map (fun g => g.1))
      ↔ (k ∈ acc.map (fun g => g.1) ∨ k ∈ rs.map keyOf) := by
  induction rs generalizing acc with
  | nil => simp
  | cons r rs ih =>
    simp only [List.foldl_cons, List.map_cons, List.mem_cons]
    rw [ih (groupAdd acc r), keys_groupAdd]
    tauto

theorem find?_key_items (gs : List (List Char × List Char × List ExpResult))
    (k : List Char) (g : List Char × List Char × List ExpResult)
    (h : gs.find? (fun g => g.1 == k) = some g) :
    g.1 = k ∧ g.2.2 = grpItems gs k := by
  induction gs with
  | nil => exact absurd h (by simp)
  | cons a l ih =>
    rw [List.find?_cons] at h
    cases hbeq : (a.1 == k) with
    | false =>
      simp only [hbeq] at h
      obtain ⟨h1, h2⟩ := ih h
      have ha : ¬a.1 = k := by simpa using hbeq
      exact ⟨h1, by simp [grpItems, ha, h2]⟩
    | true =>
      simp only [hbeq] at h
      injection h with h2
      subst h2
      have ha : a.1 = k := by simpa using hbeq
      simp [grpItems, ha]

/-- **C9 (amended).** `export_to_word` groups the results by section number
(a result whose dict lacks the key goes under `其他`) and, *whenever all
pairwise key comparisons stay within one kind* (so Python's mixed-type
`TypeError` of the counterexample cannot fire), writes the groups in
ascending order of the numeral-aware key — split on `.`, digit-only
segments compared as integers, other segments lexicographically — each group
carrying exactly the results with its key, in input order, and no result
dropped. -/
theorem c9_amended_grouping (results : List ExpResult)
    (hcmp : ∀ r1 ∈ results, ∀ r2 ∈ results,
      keyComparable (sortKey (keyOf r1)) (sortKey (keyOf r2)) = true) :
    ∃ gs, export_grouping results = Except.ok gs
      ∧ List.Pairwise (fun g1 g2 => keyLe g1.1 g2.1 = true) gs
      ∧ (∀ g ∈ gs, g.2.2 = results.filter (fun r => keyOf r == g.1))
      ∧ (∀ r ∈ results, ∃ g ∈ gs, g.1 = keyOf r) := by
  have hkeys : ∀ k, k ∈ (results.foldl groupAdd []).map (fun g => g.1)
      ↔ k ∈ results.map keyOf := by
    intro k
    rw [keys_foldl]
    simp
  have hcheck : ((results.foldl groupAdd []).map (fun g => g.1)).all
      (fun a => ((results.foldl groupAdd []).map (fun g => g.1)).all
        (fun b => keyComparable (sortKey a) (sortKey b))) = true := by
    rw [List.all_eq_true]
    intro a ha
    rw [List.all_eq_true]
    intro b hb
    obtain ⟨r1, hr1, hr1e⟩ := List.mem_map.mp ((hkeys a).mp ha)
    obtain ⟨r2, hr2, hr2e⟩ := List.mem_map.mp ((hkeys b).mp hb)
    rw [← hr1e, ← hr2e]
    exact hcmp r1 hr1 r2 hr2
  refine ⟨(((results.foldl groupAdd []).map (fun g => g.1)).mergeSort keyLe).filterMap
      (fun k => (results.foldl groupAdd []).find? (fun g => g.1 == k)), ?_, ?_, ?_, ?_⟩
  · simp only [export_grouping, pySortedKeys, hcheck, if_true]
  · apply List.Pairwise.filterMap
      (fun k => (results.foldl groupAdd []).find? (fun g => g.1 == k))
      (fun a b hR g1 hg1 g2 hg2 => ?_)
    · exact List.sorted_mergeSort keyLe_trans
        (fun a b => by simpa using keyLe_total a b) _
    · simp only [Option.mem_def] at hg1 hg2
      have e1 := (find?_key_items _ a g1 hg1).1
      have e2 := (find?_key_items _ b g2 hg2).1
      rw [e1, e2]
      exact hR
  · intro g hg
    obtain ⟨k, hk, hfk⟩ := List.mem_filterMap.mp hg
    obtain ⟨e1, e2⟩ := find?_key_items _ k g hfk
    rw [e2, e1]
    rw [grpItems_foldl results [] k]
    rfl
  · intro r hr
    have hkmem : keyOf r ∈ ((results.foldl groupAdd []).map (fun g => g.1)) :=
      (hkeys (keyOf r)).mpr (List.mem_map.mpr ⟨r, hr, rfl⟩)
    have hks : keyOf r ∈ ((results.foldl groupAdd []).map (fun g => g.1)).mergeSort
        keyLe :=
      (List.mergeSort_perm _ keyLe).mem_iff.mpr hkmem
    obtain ⟨g0, hg0mem, hg0key⟩ := List.mem_map.mp hkmem
    have hfind : ((results.foldl groupAdd []).find?
        (fun g => g.1 == keyOf r)).isSome = true :=
      List.find?_isSome.mpr ⟨g0, hg0mem, by simpa using hg0key⟩
    obtain ⟨g1, hg1⟩ := Option.isSome_iff_exists.mp hfind
    refine ⟨g1, List.mem_filterMap.mpr ⟨keyOf r, hks, hg1⟩, ?_⟩
    exact (find?_key_items _ (keyOf r) g1 hg1).1

/-! ### Claim C8: user instruction parsing

`UserInstructionParser` (bid_document_parser.py lines 770-874): the ordered
`INSTRUCTION_PATTERNS`, `parse_instruction`, `_extract_section_numbers` and
the document-name regex at line 811. The regex engine below implements the
exact constructs those five patterns use, with Python backtracking
preference order (alternation left first, `?`/`*`/`+` greedy, `*?` lazy). -/

/-- Regex AST covering the constructs of `INSTRUCTION_PATTERNS`: literals,
`.`, character classes, sequencing, alternation, greedy `?`, lazy `*?`,
greedy `*` and `+`, and the single capturing group of each pattern. -/
inductive Rx where
  | eps : Rx
  | ch (c : Char) : Rx
  | anyc : Rx
  | cls (p : Char → Bool) : Rx
  | seq (a b : Rx) : Rx
  | alt (a b : Rx) : Rx
  | opt (a : Rx) : Rx
  | starL (a : Rx) : Rx
  | starG (a : Rx) : Rx
  | plusG (a : Rx) : Rx
  | grp (a : Rx) : Rx

/-- All ways a regex matches a prefix of `s`, in Python backtracking
preference order; each result pairs the remaining suffix with the capture of
the single group, if it was entered. `fuel` bounds recursion depth and is
decremented on every call; the callers pass enough for all executions. -/
def rxMs : Nat → Rx → List Char → List (List Char × Option (List Char))
  | 0, _, _ => []
  | Nat.succ fuel, rx, s =>
    match rx with
    | .eps => [(s, none)]
    | .ch c =>
      match s with
      | [] => []
      | x :: rest => if x = c then [(rest, none)] else []
    | .anyc =>
      match s with
      | [] => []
      | x :: rest => if x = '\n' then [] else [(rest, none)]
    | .cls p =>
      match s with
      | [] => []
      | x :: rest => if p x then [(rest, none)] else []
    | .seq a b =>
      (rxMs fuel a s).flatMap (fun p =>
        (rxMs fuel b p.1).map (fun q => (q.1, p.2 <|> q.2)))
    | .alt a b => rxMs fuel a s ++ rxMs fuel b s
    | .opt a => rxMs fuel a s ++ [(s, none)]
    | .starL a =>
      (s, none) :: (rxMs fuel a s).flatMap (fun p =>
        if p.1.length < s.length then
          (rxMs fuel (.starL a) p.1).map (fun q => (q.1, p.2 <|> q.2))
        else [])
    | .starG a =>
      ((rxMs fuel a s).flatMap (fun p =>
        if p.1.length < s.length then
          (rxMs fuel (.starG a) p.1).map (fun q => (q.1, p.2 <|> q.2))
        else [])) ++ [(s, none)]
    | .plusG a =>
      (rxMs fuel a s).flatMap (fun p =>
        (rxMs fuel (.starG a) p.1).map (fun q => (q.1, p.2 <|> q.2)))
    | .grp a =>
      (rxMs fuel a s).map (fun p =>
        (p.1, some (s.take (s.length - p.1.length))))

/-- `re.search` returning `group(1)`: try the pattern at each start position
left to right, take the first (most preferred) match. -/
def rxSearch (rx : Rx) : List Char → Option (List Char)
  | [] =>
    match rxMs 64 rx [] with
    | p :: _ => some (p.2.getD [])
    | [] => none
  | c :: rest =>
    match rxMs ((rest.length + 2) * 64) rx (c :: rest) with
    | p :: _ => some (p.2.getD [])
    | [] => rxSearch rx rest

/-- Literal-string regex. -/
def rstr (s : String) : Rx :=
  s.data.foldr (fun c acc => Rx.seq (Rx.ch c) acc) Rx.eps

/-- Left-preferring alternation of a nonempty list. -/
def raltOf : List Rx → Rx
  | [] => Rx.cls (fun _ => false)
  | [r] => r
  | r :: rest => Rx.alt r (raltOf rest)

/-- The class `[0-9\.,、\s]`. -/
def numSepCls (c : Char) : Bool :=
  c.isDigit || c = '.' || c = ',' || c = '、' || pyWs c

/-- The class `[0-9\.,、和与\s]`. -/
def numSepHeCls (c : Char) : Bool :=
  numSepCls c || c = '和' || c = '与'

/-- The class `[,、和与]`. -/
def listSepCls (c : Char) : Bool :=
  c = ',' || c = '、' || c = '和' || c = '与'

/-- Pattern 1: `针对.*?(?:文档|文件)?.*?(?:中的|里的|的)?([0-9\.,、\s]+)作答`. -/
def instrRx1 : Rx :=
  Rx.seq (rstr "针对") (Rx.seq (Rx.starL Rx.anyc)
    (Rx.seq (Rx.opt (Rx.alt (rstr "文档") (rstr "文件")))
      (Rx.seq (Rx.starL Rx.anyc)
        (Rx.seq (Rx.opt (raltOf [rstr "中的", rstr "里的", rstr "的"]))
          (Rx.seq (Rx.grp (Rx.plusG (Rx.cls numSepCls))) (rstr "作答"))))))

/-- Pattern 2: `回答\s*([0-9\.,、和与\s]+)`. -/
def instrRx2 : Rx :=
  Rx.seq (rstr "回答") (Rx.seq (Rx.starG (Rx.cls pyWs))
    (Rx.grp (Rx.plusG (Rx.cls numSepHeCls))))

/-- Pattern 3: `对\s*([0-9\.,、和与\s]+)\s*(?:进行)?(?:作答|回复|回答)`. -/
def instrRx3 : Rx :=
  Rx.seq (rstr "对") (Rx.seq (Rx.starG (Rx.cls pyWs))
    (Rx.seq (Rx.grp (Rx.plusG (Rx.cls numSepHeCls)))
      (Rx.seq (Rx.starG (Rx.cls pyWs))
        (Rx.seq (Rx.opt (rstr "进行"))
          (raltOf [rstr "作答", rstr "回复", rstr "回答"])))))

/-- The dotted-number regex `[0-9]+(?:\.[0-9]+)+`. -/
def dottedRx : Rx :=
  Rx.seq (Rx.plusG (Rx.cls Char.isDigit))
    (Rx.plusG (Rx.seq (Rx.ch '.') (Rx.plusG (Rx.cls Char.isDigit))))

/-- Pattern 4:
`([0-9]+(?:\.[0-9]+)+(?:\s*[,、和与]\s*[0-9]+(?:\.[0-9]+)+)*)\s*(?:章节|部分)?`. -/
def instrRx4 : Rx :=
  Rx.seq (Rx.grp (Rx.seq dottedRx (Rx.starG
      (Rx.seq (Rx.starG (Rx.cls pyWs)) (Rx.seq (Rx.cls listSepCls)
        (Rx.seq (Rx.starG (Rx.cls pyWs)) dottedRx))))))
    (Rx.seq (Rx.starG (Rx.cls pyWs)) (Rx.opt (Rx.alt (rstr "章节") (rstr "部分"))))

/-- Pattern 5: `章节\s*([0-9\.,、和与\s]+)`. -/
def instrRx5 : Rx :=
  Rx.seq (rstr "章节") (Rx.seq (Rx.starG (Rx.cls pyWs))
    (Rx.grp (Rx.plusG (Rx.cls numSepHeCls))))

/-- `INSTRUCTION_PATTERNS` (lines 771-782), in source order. -/
def INSTRUCTION_RXS : List Rx :=
  [instrRx1, instrRx2, instrRx3, instrRx4, instrRx5]

/-- Greedy run of `(?:\.[0-9]+)` groups at the head of `s`: the consumed
characters and the rest. -/
def dotRuns : Nat → List Char → List Char × List Char
  | 0, s => ([], s)
  | Nat.succ fuel, s =>
    match s with
    | '.' :: rest =>
      let ds := rest.takeWhile Char.isDigit
      if ds.isEmpty then ([], s)
      else
        let r := dotRuns fuel (rest.dropWhile Char.isDigit)
        ('.' :: (ds ++ r.1), r.2)
    | _ => ([], s)

/-- One `\d+(?:\.\d+)+` match at the head of `s` (with the rest), if any.
After the maximal digit run the next character must be a dot, so the greedy
match needs no backtracking. -/
def matchDotted (s : List Char) : Option (List Char × List Char) :=
  let d0 := s.takeWhile Char.isDigit
  if d0.isEmpty then none
  else
    let r := dotRuns s.length (s.dropWhile Char.isDigit)
    if r.1.isEmpty then none else some (d0 ++ r.1, r.2)

/-- `re.findall(r'\d+(?:\.\d+)+', ·)`: leftmost non-overlapping matches. -/
def findDotted : Nat → List Char → List (List Char)
  | 0, _ => []
  | Nat.succ fuel, s =>
    match s with
    | [] => []
    | c :: rest =>
      match matchDotted (c :: rest) with
      | some m => m.1 :: findDotted fuel m.2
      | none => findDotted fuel rest

/-- All dotted-number substrings of `s`, left to right. -/
def findAllDotted (s : List Char) : List (List Char) :=
  findDotted s.length s

/-- `UserInstructionParser._extract_section_numbers` (lines 837-860):
findall, normalize each via `_normalize_number`, deduplicate keeping the
first-seen order. -/
def extract_section_numbers (t : List Char) : List (List Char) :=
  ((findAllDotted t).map normalize_number).foldl
    (fun acc n => if acc.contains n then acc else acc ++ [n]) []

/-- One attempt of the document-name regex of line 811 at the current
position: `["]([^"]+)["]` is the preferred alternative, then
`文档[《]([^》]+)[》]`; the returned group is `group(1) or group(2)`. -/
def docNameAt (s : List Char) : Option (List Char) :=
  match s with
  | '"' :: rest =>
    let body := rest.takeWhile (fun c => c != '"')
    if body.isEmpty then none
    else
      match rest.dropWhile (fun c => c != '"') with
      | '"' :: _ => some body
      | _ => none
  | '文' :: '档' :: '《' :: rest =>
    let body := rest.takeWhile (fun c => c != '》')
    if body.isEmpty then none
    else
      match rest.dropWhile (fun c => c != '》') with
      | '》' :: _ => some body
      | _ => none
  | _ => none

/-- Document-name extraction (line 811): first matching start position. -/
def docNameOf : List Char → Option (List Char)
  | [] => none
  | c :: rest =>
    match docNameAt (c :: rest) with
    | some b => some b
    | none => docNameOf rest

/-- The result dict of `parse_instruction`. -/
structure InstrResult where
  action : Option (List Char)
  sectionNumbers : List (List Char)
  documentName : Option (List Char)
  originalInstruction : List Char
  parsed : Bool
deriving Repr, DecidableEq

/-- The template loop of `parse_instruction` (lines 816-826): the first
pattern that matches and whose captured group yields a nonempty number list
wins. -/
def firstTemplateHit : List Rx → List Char → Option (List (List Char))
  | [], _ => none
  | rx :: rest, s =>
    match rxSearch rx s with
    | some g =>
      let nums := extract_section_numbers g
      if nums.isEmpty then firstTemplateHit rest s else some nums
    | none => firstTemplateHit rest s

/-- `UserInstructionParser.parse_instruction` (lines 787-835). -/
def parse_instruction (instruction : List Char) : InstrResult :=
  let base : InstrResult :=
    { action := none
      sectionNumbers := []
      documentName := docNameOf instruction
      originalInstruction := instruction
      parsed := false }
  match firstTemplateHit INSTRUCTION_RXS instruction with
  | some nums =>
    { base with
        action := some "answer_sections".data
        sectionNumbers := nums
        parsed := true }
  | none =>
    let nums := extract_section_numbers instruction
    if nums.isEmpty then base
    else
      { base with
          action := some "answer_sections".data
          sectionNumbers := nums
          parsed := true }

/-- The seen-set dedup fold keeps the accumulator duplicate-free. -/
theorem dedup_fold_nodup (l : List (List Char)) :
    ∀ acc : List (List Char), acc.Nodup →
      (l.foldl (fun acc n => if acc.contains n then acc else acc ++ [n])
        acc).Nodup := by
  induction l with
  | nil => intro acc h; exact h
  | cons x xs ih =>
    intro acc h
    simp only [List.foldl_cons]
    by_cases hc : acc.contains x = true
    · rw [if_pos hc]; exact ih acc h
    · rw [if_neg hc]
      refine ih _ (h.append (List.nodup_singleton x) ?_)
      intro a ha hb
      rw [List.mem_singleton] at hb
      subst hb
      exact hc (List.elem_iff.mpr ha)

/-- **C8.** `parse_instruction` tries the ordered phrasing templates and, on
the first whose captured group contains dotted numbers, extracts every
`\d+(\.\d+)+` substring from that group, normalized and deduplicated in
first-seen order; when no template applies it scans the whole input the same
way, and `parsed` is set exactly when numbers were found. In particular the
instruction `针对文档中的1.4.1,1.4.2作答` yields section numbers
`["1.4.1", "1.4.2"]` and `parsed = true`. -/
theorem c8_instruction_numbers :
    (parse_instruction "针对文档中的1.4.1,1.4.2作答".data).sectionNumbers
        = ["1.4.1".data, "1.4.2".data]
    ∧ (parse_instruction "针对文档中的1.4.1,1.4.2作答".data).parsed = true
    ∧ (∀ t : List Char, (extract_section_numbers t).Nodup)
    ∧ (∀ t : List Char, firstTemplateHit INSTRUCTION_RXS t = none →
        (parse_instruction t).sectionNumbers = extract_section_numbers t
          ∧ (parse_instruction t).parsed
              = !(extract_section_numbers t).isEmpty) := by
  refine ⟨rfl, rfl, ?_, ?_⟩
  · intro t
    exact dedup_fold_nodup _ [] List.nodup_nil
  · intro t hmiss
    simp only [parse_instruction, hmiss]
    cases hnum : (extract_section_numbers t).isEmpty
    · simp [hnum]
    · simp [hnum, List.isEmpty_iff.mp hnum]

theorem c8_instruction_numbers_witness :
    (parse_instruction "无".data).sectionNumbers
        = extract_section_numbers "无".data
      ∧ (parse_instruction "无".data).parsed
          = !(extract_section_numbers "无".data).isEmpty :=
  c8_instruction_numbers.2.2.2 "无".data rfl

theorem c9_amended_grouping_witness :
    ∃ gs, export_grouping [c9Numbered] = Except.ok gs
      ∧ List.Pairwise (fun g1 g2 => keyLe g1.1 g2.1 = true) gs
      ∧ (∀ g ∈ gs, g.2.2 = [c9Numbered].filter (fun r => keyOf r == g.1))
      ∧ (∀ r ∈ [c9Numbered], ∃ g ∈ gs, g.1 = keyOf r) :=
  c9_amended_grouping [c9Numbered] (by decide)

/-! ### Claims C4 and C6: the WordParser streaming parse (word_parser.py)

The document is modeled as the stream `_iter_block_items` yields: paragraphs
and tables, a paragraph being runs, a run its XML children. Filesystem and
database side effects carry no information a claim mentions and are dropped;
`_save_image_by_rid` succeeding for a rId is a `Bool` on the drawing child.
Cells contain paragraphs (documents with tables nested inside table cells
are outside this embedding), and the style metadata copied verbatim into the
chapter dict (`style_name`, `is_bold`, `font_size`) is omitted. -/

/-- One XML child of a run (`_parse_run_children` loop): a `w:t` text node,
`w:tab`, `w:br`, or a `w:drawing`/`w:pict` whose extracted rIds each do
(`true`) or do not (`false`) resolve to a stored image part. -/
inductive RunChild where
  | t (text : List Char) : RunChild
  | tab : RunChild
  | br : RunChild
  | drawing (rids : List Bool) : RunChild

/-- A run: its XML children and its `run.text`. -/
structure WRun where
  children : List RunChild
  text : List Char

/-- A paragraph: the level `_get_paragraph_outline_level` computes (`none`
for body text) and the runs. -/
structure WPara where
  outline : Option Nat
  runs : List WRun

/-- A table cell: its paragraphs. -/
structure WCell where
  paras : List WPara

/-- One block of the document body stream (`_iter_block_items`). -/
inductive WBlk where
  | para (p : WPara) : WBlk
  | table (rows : List (List WCell)) : WBlk

/-- The image-dict fields the claims mention. -/
structure ImgRec where
  orderInDoc : Nat
  chapterTempId : Nat
  positionInChapter : Nat
  blockIndex : Nat

/-- One chapter dict of `WordParser.parse`. -/
structure Chapter where
  tempId : Nat
  level : Nat
  title : List Char
  parentTempId : Option Nat
  contentList : List (List Char)
  paragraphIndex : Nat
  imgPos : Nat

/-- The mutable inline-parse state threaded through `_parse_run_children`:
the global `_img_order_counter`, the accumulated `self.images`, and the
current chapter's `_img_pos` scratch counter. -/
structure ISt where
  imgCounter : Nat
  images : List ImgRec
  imgPos : Nat

/-- The `\x7b\x7bIMAGE_ORDER_` placeholder prefix (braces escaped). -/
def imageOrderPre : List Char := "\x7b\x7bIMAGE_ORDER_".data

/-- The emitted placeholder `\x7b\x7bIMAGE_ORDER_<n>\x7d\x7d` of line 196. -/
def imageOrderTok (n : Nat) : List Char :=
  imageOrderPre ++ natDigs n ++ ['}', '}']

/-- The post-pass replacement `\x7b\x7bIMAGE_ID_<id>\x7d\x7d` of line 425. -/
def imageIdTok (n : Nat) : List Char :=
  imageIdPre ++ natDigs n ++ ['}', '}']

/-- One resolved rId inside a drawing (`_save_image_by_rid` succeeding):
record the image with the current counter and chapter position, emit the
placeholder. -/
def drawStep (tid bidx : Nat) (p : List Char × ISt) (ok : Bool) :
    List Char × ISt :=
  if ok then
    (p.1 ++ imageOrderTok p.2.imgCounter,
      { imgCounter := p.2.imgCounter + 1
        images := p.2.images ++
          [⟨p.2.imgCounter, tid, p.2.imgPos, bidx⟩]
        imgPos := p.2.imgPos + 1 })
  else p

/-- One child step of `_parse_run_children` (lines 160-204): accumulate the
`out` fragments and thread the image state. `tid` and `bidx` are the
current chapter's temp id and the block index. -/
def runChildStep (tid bidx : Nat) (acc : List Char × ISt) :
    RunChild → List Char × ISt
  | .t txt => if txt.isEmpty then acc else (acc.1 ++ txt, acc.2)
  | .tab => (acc.1 ++ ['\t'], acc.2)
  | .br => (acc.1 ++ ['\n'], acc.2)
  | .drawing rids => rids.foldl (drawStep tid bidx) acc

/-- `_parse_run_children` with the trailing `run.text` fallback (every
appended fragment is nonempty, so emptiness of the concatenation coincides
with `not out`). -/
def parseRunChildren (tid bidx : Nat) (st : ISt) (r : WRun) :
    List Char × ISt :=
  let p := r.children.foldl (runChildStep tid bidx) ([], st)
  if p.1.isEmpty && !r.text.isEmpty then (r.text, p.2) else p

/-- `_parse_paragraph_inline`: concatenate the run fragments, `.strip()`. -/
def parseParagraphInline (tid bidx : Nat) (st : ISt) (runs : List WRun) :
    List Char × ISt :=
  let p := runs.foldl (fun acc r =>
    let q := parseRunChildren tid bidx acc.2 r
    (acc.1 ++ q.1, q.2)) ([], st)
  (pyStrip p.1, p.2)

/-- `re.sub(r"\s+", " ", ·)`: each maximal whitespace run becomes one space
(the flag records whether the previous character was whitespace). -/
def collapseWsF : Bool → List Char → List Char
  | _, [] => []
  | prevWs, c :: rest =>
    if pyWs c then
      if prevWs then collapseWsF true rest
      else ' ' :: collapseWsF true rest
    else c :: collapseWsF false rest

def collapseWs (s : List Char) : List Char := collapseWsF false s

/-- `_parse_cell`: the nonempty paragraph texts joined by newlines,
stripped. -/
def parseCell (tid bidx : Nat) (st : ISt) (c : WCell) : List Char × ISt :=
  let p := c.paras.foldl (fun acc pa =>
    let q := parseParagraphInline tid bidx acc.2 pa.runs
    (if q.1.isEmpty then acc.1 else acc.1 ++ [q.1], q.2)) ([], st)
  (pyStrip (joinSep ['\n'] p.1), p.2)

/-- `_parse_table`: `[表格]`, one `| ... |` line per row with
whitespace-collapsed stripped cell texts, `[/表格]`, joined by newlines. -/
def parseTable (tid bidx : Nat) (st : ISt) (rows : List (List WCell)) :
    List Char × ISt :=
  let p := rows.foldl (fun acc row =>
    let q := row.foldl (fun a c =>
      let r := parseCell tid bidx a.2 c
      (a.1 ++ [pyStrip (collapseWs r.1)], r.2)) ([], acc.2)
    (acc.1 ++ ["| ".data ++ joinSep " | ".data q.1 ++ " |".data], q.2))
    ([], st)
  (joinSep ['\n'] ("[表格]".data :: (p.1 ++ ["[/表格]".data])), p.2)

/-- `_extract_plain_text_from_paragraph`: the `run.text`s joined (the
nonemptiness filter before `append` does not change the join). -/
def plainText (runs : List WRun) : List Char :=
  runs.foldl (fun acc r => acc ++ r.text) []

/-- The streaming state of `WordParser.parse` (lines 243-311): finished
chapters, the chapter currently being written (`current_chapter`, an alias
into the chapter list, modeled by appending it when the next one starts),
the ancestor stack with its top first, and the counters. -/
structure PSt where
  done : List Chapter
  cur : Chapter
  stack : List (Nat × Option Nat)
  tempIdCounter : Nat
  blockIndex : Nat
  imgCounter : Nat
  images : List ImgRec

/-- The default starting chapter (lines 249-260). -/
def initChapter : Chapter :=
  { tempId := 0
    level := 1
    title := "正文".data
    parentTempId := none
    contentList := []
    paragraphIndex := 0
    imgPos := 0 }

def initPSt : PSt :=
  { done := []
    cur := initChapter
    stack := [(0, none)]
    tempIdCounter := 0
    blockIndex := 0
    imgCounter := 1
    images := [] }

/-- A non-heading paragraph (or a heading whose stripped title is empty):
parse inline, append nonempty text to the current chapter's content list,
advance the block index. -/
def paraBody (st : PSt) (runs : List WRun) : PSt :=
  let r := parseParagraphInline st.cur.tempId st.blockIndex
    ⟨st.imgCounter, st.images, st.cur.imgPos⟩ runs
  { st with
      cur := { st.cur with
        contentList := if r.1.isEmpty then st.cur.contentList
          else st.cur.contentList ++ [r.1]
        imgPos := r.2.imgPos }
      blockIndex := st.blockIndex + 1
      imgCounter := r.2.imgCounter
      images := r.2.images }

/-- A heading paragraph at `level` whose stripped title is the nonempty
`title` (lines 266-292): pop the ancestor stack down to entries below
`level`, open a new chapter whose parent is the remaining stack top. -/
def headingStep (st : PSt) (level : Nat) (title : List Char) : PSt :=
  let tid := st.tempIdCounter + 1
  let stack2 := st.stack.dropWhile (fun e => level ≤ e.1)
  let parent := match stack2 with
    | [] => none
    | e :: _ => e.2
  { done := st.done ++ [st.cur]
    cur := { tempId := tid
             level := level
             title := title
             parentTempId := parent
             contentList := []
             paragraphIndex := st.blockIndex
             imgPos := 0 }
    stack := (level, some tid) :: stack2
    tempIdCounter := tid
    blockIndex := st.blockIndex + 1
    imgCounter := st.imgCounter
    images := st.images }

/-- One body block of `WordParser.parse` (lines 262-311): a heading
paragraph pops the ancestor stack and opens a new chapter; other
paragraphs and tables extend the current chapter's content. -/
def blockStep (st : PSt) : WBlk → PSt
  | .para p =>
    match p.outline with
    | some level =>
      let title := pyStrip (plainText p.runs)
      if title.isEmpty then paraBody st p.runs
      else headingStep st level title
    | none => paraBody st p.runs
  | .table rows =>
    let r := parseTable st.cur.tempId st.blockIndex
      ⟨st.imgCounter, st.images, st.cur.imgPos⟩ rows
    { st with
        cur := { st.cur with
          contentList := if r.1.isEmpty then st.cur.contentList
            else st.cur.contentList ++ [r.1]
          imgPos := r.2.imgPos }
        blockIndex := st.blockIndex + 1
        imgCounter := r.2.imgCounter
        images := r.2.images }

/-- All chapter dicts of a parse state, in creation order. -/
def chapList (st : PSt) : List Chapter := st.done ++ [st.cur]

/-- A chapter's final `content` (lines 313-314): the content list joined by
newlines and stripped. -/
def chapterContent (c : Chapter) : List Char :=
  pyStrip (joinSep ['\n'] c.contentList)

/-- `WordParser.parse`: fold the block stream, return the chapters (the
current one last) and the image records. -/
def wordParse (blocks : List WBlk) : List Chapter × List ImgRec :=
  let st := blocks.foldl blockStep initPSt
  (chapList st, st.images)

/-- The post-pass placeholder rewrite of `process_word_task` (lines
414-427): `re.sub(r'\x7b\x7bIMAGE_ORDER_(\d+)\x7d\x7d', _repl, content)`,
each token becoming `\x7b\x7bIMAGE_ID_<id>\x7d\x7d` when
`order_to_image_id` holds a (truthy) id for its number and staying itself
otherwise. The fuel is the input length; every step consumes at least one
character. -/
def rewriteToks (idMap : Nat → Option Nat) : Nat → List Char → List Char
  | 0, s => s
  | Nat.succ fuel, s =>
    match s with
    | [] => []
    | c :: rest =>
      match tryTok imageOrderPre (c :: rest) with
      | some p =>
        (match idMap (valOf p.1) with
         | some idv => imageIdTok idv
         | none => imageOrderPre ++ p.1 ++ ['}', '}']) ++
          rewriteToks idMap fuel p.2
      | none => c :: rewriteToks idMap fuel rest

/-- The persisted content of a chapter after the post-pass (the early
`continue` when no prefix occurs and the `new_content != content` check
only skip redundant database writes; the success path of the chapter
insert is assumed, as the claim is about persisted rows). -/
def persistedContent (idMap : Nat → Option Nat) (c : Chapter) : List Char :=
  if containsSub imageOrderPre (chapterContent c) then
    rewriteToks idMap (chapterContent c).length (chapterContent c)
  else chapterContent c

/-- The `IMAGE_ORDER` token numbers readable at the successive suffix
positions of a string (a token remains in a content exactly when this list
is nonempty). -/
def ordToksIn : List Char → List Nat
  | [] => []
  | c :: rest =>
    match tryTok imageOrderPre (c :: rest) with
    | some p => valOf p.1 :: ordToksIn rest
    | none => ordToksIn rest

/-- Levels strictly decreasing from the stack top down — Python's
"strictly increasing bottom-to-top", the stack top being `parent_stack[-1]`
and the head of the embedded list. -/
def stackDesc : List (Nat × Option Nat) → Bool
  | [] => true
  | [_] => true
  | a :: b :: rest => decide (b.1 < a.1) && stackDesc (b :: rest)

theorem stackDesc_tail (a : Nat × Option Nat) (l : List (Nat × Option Nat))
    (h : stackDesc (a :: l) = true) : stackDesc l = true := by
  cases l with
  | nil => rfl
  | cons b rest => exact (Bool.and_eq_true_iff.mp h).2

theorem stackDesc_dropWhile (q : Nat × Option Nat → Bool)
    (l : List (Nat × Option Nat)) (h : stackDesc l = true) :
    stackDesc (l.dropWhile q) = true := by
  induction l with
  | nil => exact h
  | cons a l ih =>
    rw [List.dropWhile_cons]
    by_cases hq : q a
    · rw [if_pos hq]; exact ih (stackDesc_tail a l h)
    · rw [if_neg hq]; exact h

theorem dropWhile_head_not {α} (q : α → Bool) (l : List α) (e : α)
    (rest : List α) (h : l.dropWhile q = e :: rest) : q e = false := by
  induction l with
  | nil => simp [List.dropWhile] at h
  | cons a l ih =>
    rw [List.dropWhile_cons] at h
    by_cases hq : q a
    · rw [if_pos hq] at h; exact ih h
    · rw [if_neg hq] at h
      cases h
      simpa using hq

theorem mem_of_mem_dropWhile {α} (q : α → Bool) (l : List α) (e : α)
    (h : e ∈ l.dropWhile q) : e ∈ l := by
  induction l with
  | nil => simpa using h
  | cons a l ih =>
    rw [List.dropWhile_cons] at h
    by_cases hq : q a
    · rw [if_pos hq] at h; exact List.mem_cons_of_mem a (ih h)
    · rw [if_neg hq] at h; exact h

/-- The identity of a chapter dict: the fields a body paragraph or table
never touches. -/
def chKey (c : Chapter) : Nat × Nat × Option Nat :=
  (c.tempId, c.level, c.parentTempId)

/-- The streaming invariant of `WordParser.parse` for claim C6. -/
structure ParseInv (st : PSt) : Prop where
  desc : stackDesc st.stack = true
  entries : ∀ e ∈ st.stack, ∀ tid, e.2 = some tid →
      ∃ c ∈ chapList st, c.tempId = tid ∧ c.level = e.1
  parents : ∀ c ∈ chapList st, ∀ p, c.parentTempId = some p →
      ∃ c2 ∈ chapList st, c2.tempId = p ∧ c2.level < c.level
  ids : (chapList st).map Chapter.tempId = List.range (st.tempIdCounter + 1)

theorem exists_of_chKey_map {l l' : List Chapter}
    (h : l'.map chKey = l.map chKey) {c : Chapter} (hc : c ∈ l) :
    ∃ c2 ∈ l', chKey c2 = chKey c := by
  have hm : chKey c ∈ l'.map chKey := by
    rw [h]; exact List.mem_map.mpr ⟨c, hc, rfl⟩
  obtain ⟨c2, h1, h2⟩ := List.mem_map.mp hm
  exact ⟨c2, h1, h2⟩

theorem chKey_map_paraBody (st : PSt) (runs : List WRun) :
    (chapList (paraBody st runs)).map chKey = (chapList st).map chKey := by
  simp [paraBody, chapList, chKey]

theorem parseInv_transfer (st st' : PSt)
    (hmap : (chapList st').map chKey = (chapList st).map chKey)
    (hstk : st'.stack = st.stack) (hctr : st'.tempIdCounter = st.tempIdCounter)
    (hinv : ParseInv st) : ParseInv st' := by
  refine ⟨by rw [hstk]; exact hinv.desc, ?_, ?_, ?_⟩
  · intro e he tid htid
    rw [hstk] at he
    obtain ⟨c, hc, h1, h2⟩ := hinv.entries e he tid htid
    obtain ⟨c2, hc2, hk⟩ := exists_of_chKey_map hmap hc
    simp only [chKey, Prod.mk.injEq] at hk
    exact ⟨c2, hc2, hk.1 ▸ h1, hk.2.1 ▸ h2⟩
  · intro c hc p hp
    obtain ⟨c0, hc0, hk0⟩ := exists_of_chKey_map hmap.symm hc
    simp only [chKey, Prod.mk.injEq] at hk0
    obtain ⟨c2, hc2, h1, h2⟩ := hinv.parents c0 hc0 p (hk0.2.2 ▸ hp)
    obtain ⟨c3, hc3, hk3⟩ := exists_of_chKey_map hmap hc2
    simp only [chKey, Prod.mk.injEq] at hk3
    refine ⟨c3, hc3, hk3.1 ▸ h1, ?_⟩
    rw [hk3.2.1, ← hk0.2.1]; exact h2
  · have : (chapList st').map Chapter.tempId
        = (chapList st).map Chapter.tempId := by
      have h1 := congrArg (List.map Prod.fst) hmap
      simpa [List.map_map, Function.comp, chKey] using h1
    rw [this, hctr]; exact hinv.ids

theorem parseInv_paraBody (st : PSt) (hinv : ParseInv st) (runs : List WRun) :
    ParseInv (paraBody st runs) :=
  parseInv_transfer st (paraBody st runs) (chKey_map_paraBody st runs)
    rfl rfl hinv

theorem parseInv_heading (st : PSt) (hinv : ParseInv st) (level : Nat)
    (title : List Char) : ParseInv (headingStep st level title) := by
  have hdesc2 : stackDesc (st.stack.dropWhile (fun e => level ≤ e.1)) = true :=
    stackDesc_dropWhile _ _ hinv.desc
  simp only [headingStep]
  cases hdrop : st.stack.dropWhile (fun e => level ≤ e.1) with
  | nil =>
    rw [hdrop] at hdesc2
    refine ⟨rfl, ?_, ?_, ?_⟩
    · intro e he tid htid
      rw [List.mem_singleton] at he
      subst he
      simp only at htid
      refine ⟨_, List.mem_append_right _ (List.mem_singleton_self _), ?_, rfl⟩
      simpa using htid
    · intro c hc p hp
      rcases List.mem_append.mp hc with hc0 | hc1
      · obtain ⟨c2, hc2, h1, h2⟩ := hinv.parents c hc0 p hp
        exact ⟨c2, List.mem_append_left _ hc2, h1, h2⟩
      · rw [List.mem_singleton] at hc1
        subst hc1
        simp at hp
    · show (chapList st ++ [_]).map Chapter.tempId = _
      rw [List.map_append, hinv.ids]
      simp [List.range_succ]
  | cons e2 rest =>
    have he2 : decide (level ≤ e2.1) = false :=
      dropWhile_head_not (fun e => decide (level ≤ e.1)) st.stack e2 rest hdrop
    have he2lt : e2.1 < level := Nat.lt_of_not_le (of_decide_eq_false he2)
    rw [hdrop] at hdesc2
    refine ⟨?_, ?_, ?_, ?_⟩
    · show stackDesc ((level, some _) :: e2 :: rest) = true
      simp only [stackDesc, Bool.and_eq_true_iff]
      exact ⟨decide_eq_true he2lt, hdesc2⟩
    · intro e he tid htid
      rcases List.mem_cons.mp he with he0 | he1
      · subst he0
        simp only at htid
        refine ⟨_, List.mem_append_right _ (List.mem_singleton_self _), ?_, rfl⟩
        simpa using htid
      · have hmem : e ∈ st.stack :=
          mem_of_mem_dropWhile _ _ _ (hdrop ▸ he1)
        obtain ⟨c, hc, h1, h2⟩ := hinv.entries e hmem tid htid
        exact ⟨c, List.mem_append_left _ hc, h1, h2⟩
    · intro c hc p hp
      rcases List.mem_append.mp hc with hc0 | hc1
      · obtain ⟨c2, hc2, h1, h2⟩ := hinv.parents c hc0 p hp
        exact ⟨c2, List.mem_append_left _ hc2, h1, h2⟩
      · rw [List.mem_singleton] at hc1
        subst hc1
        simp only at hp
        have hmem : e2 ∈ st.stack :=
          mem_of_mem_dropWhile _ _ _ (hdrop ▸ List.mem_cons_self e2 rest)
        obtain ⟨c2, hc2, h1, h2⟩ := hinv.entries e2 hmem p hp
        exact ⟨c2, List.mem_append_left _ hc2, h1, by rw [h2]; exact he2lt⟩
    · show (chapList st ++ [_]).map Chapter.tempId = _
      rw [List.map_append, hinv.ids]
      simp [List.range_succ]

theorem parseInv_blockStep (st : PSt) (hinv : ParseInv st) (b : WBlk) :
    ParseInv (blockStep st b) := by
  cases b with
  | table rows =>
    exact parseInv_transfer st _ (by simp [blockStep, chapList, chKey])
      rfl rfl hinv
  | para p =>
    cases houtl : p.outline with
    | none =>
      simp only [blockStep, houtl]
      exact parseInv_paraBody st hinv p.runs
    | some level =>
      simp only [blockStep, houtl]
      by_cases htitle : (pyStrip (plainText p.runs)).isEmpty = true
      · rw [if_pos htitle]
        exact parseInv_paraBody st hinv p.runs
      · rw [if_neg htitle]
        exact parseInv_heading st hinv level _

theorem parseInv_foldl (st : PSt) (hinv : ParseInv st) (blocks : List WBlk) :
    ParseInv (blocks.foldl blockStep st) := by
  induction blocks generalizing st with
  | nil => exact hinv
  | cons b bs ih =>
    rw [List.foldl_cons]
    exact ih _ (parseInv_blockStep st hinv b)

theorem parseInv_init : ParseInv initPSt := by
  refine ⟨rfl, ?_, ?_, ?_⟩
  · intro e he tid htid
    simp only [initPSt, List.mem_singleton] at he
    subst he
    simp at htid
  · intro c hc p hp
    simp only [initPSt, chapList, List.nil_append, List.mem_singleton] at hc
    subst hc
    simp [initChapter] at hp
  · rfl

/-! #### Claim C4: the IMAGE_ORDER placeholder round trip

The invariant: in every stored content fragment, every suffix that begins
with a left brace starts a complete `IMAGE_ORDER` token whose number is in
`[1, _img_order_counter)` — or is the one-brace-shorter view of such a
token (its second character); raw document text contributes no braces at
all (hypothesis `docBraceFree`), so the braces in content come only from
emitted placeholders. -/

/-- `imageOrderPre` without its first brace (the view of a token from its
second character). -/
def imageOrderPre1 : List Char := "\x7bIMAGE_ORDER_".data

/-- No left brace anywhere (raw document text under `docBraceFree`). -/
def nonBra (s : List Char) : Bool := s.all (fun c => c != '{')

/-- `w:t` text nodes hold no brace. -/
def textOkRC : RunChild → Bool
  | .t txt => nonBra txt
  | _ => true

def runOk (r : WRun) : Bool := r.children.all textOkRC && nonBra r.text

def paraOk (p : WPara) : Bool := p.runs.all runOk

def cellOk (c : WCell) : Bool := c.paras.all paraOk

def blkOk : WBlk → Bool
  | .para p => paraOk p
  | .table rows => rows.all (fun row => row.all cellOk)

/-- The document's own text contains no left brace, so the placeholder
tokens the parser emits are the only brace-bearing content. -/
def docBraceFree (blocks : List WBlk) : Bool := blocks.all blkOk

theorem dropPre_self (p r : List Char) : dropPre p (p ++ r) = some r := by
  induction p with
  | nil => rfl
  | cons c cs ih => simp [dropPre, ih]

theorem dropPre_sound (p : List Char) :
    ∀ s r : List Char, dropPre p s = some r → s = p ++ r := by
  induction p with
  | nil => intro s r h; cases h; rfl
  | cons c cs ih =>
    intro s r h
    cases s with
    | nil => exact absurd h (by simp [dropPre])
    | cons x xs =>
      simp only [dropPre] at h
      by_cases hx : c = x
      · rw [if_pos hx] at h
        rw [List.cons_append, ← hx, ih xs r h]
      · rw [if_neg hx] at h; cases h

theorem takeWhile_append_all (p : Char → Bool) (a l : List Char)
    (ha : ∀ x ∈ a, p x = true) :
    (a ++ l).takeWhile p = a ++ l.takeWhile p
    ∧ (a ++ l).dropWhile p = l.dropWhile p := by
  induction a with
  | nil => exact ⟨rfl, rfl⟩
  | cons c cs ih =>
    have hc : p c = true := ha c (List.mem_cons_self c cs)
    have ih2 := ih (fun x hx => ha x (List.mem_cons_of_mem c hx))
    constructor
    · rw [List.cons_append, List.takeWhile_cons, hc, if_pos rfl,
        List.cons_append, ih2.1]
    · rw [List.cons_append, List.dropWhile_cons, hc, if_pos rfl, ih2.2]

theorem mem_takeWhile_sat (p : Char → Bool) :
    ∀ l : List Char, ∀ x ∈ l.takeWhile p, p x = true := by
  intro l
  induction l with
  | nil => intro x hx; simp at hx
  | cons c cs ih =>
    intro x hx
    rw [List.takeWhile_cons] at hx
    by_cases hc : p c
    · rw [if_pos hc] at hx
      rcases List.mem_cons.mp hx with rfl | hx2
      · exact hc
      · exact ih x hx2
    · rw [if_neg hc] at hx; simp at hx

/-- Soundness of the token reader: a successful `tryTok` decomposes the
input into prefix, nonempty digit group, the two closing braces, rest. -/
theorem tryTok_sound (pre s ds rem : List Char)
    (h : tryTok pre s = some (ds, rem)) :
    s = pre ++ ds ++ '}' :: '}' :: rem
    ∧ ds ≠ [] ∧ ∀ x ∈ ds, x.isDigit = true := by
  unfold tryTok at h
  cases hd : dropPre pre s with
  | none => rw [hd] at h; cases h
  | some rest =>
    rw [hd] at h
    simp only at h
    by_cases he : (rest.takeWhile Char.isDigit).isEmpty = true
    · rw [if_pos he] at h; cases h
    · rw [if_neg he] at h
      cases hw : rest.dropWhile Char.isDigit with
      | nil => rw [hw] at h; cases h
      | cons c1 t1 =>
        cases t1 with
        | nil => rw [hw] at h; cases h
        | cons c2 t2 =>
          rw [hw] at h
          simp only [tokTail] at h
          by_cases hbr : c1 = '}' ∧ c2 = '}'
          · rw [if_pos hbr] at h
            obtain ⟨hds, hrem⟩ := Prod.mk.injEq .. |>.mp (Option.some.inj h)
            refine ⟨?_, ?_, ?_⟩
            · rw [dropPre_sound pre s rest hd,
                ← List.takeWhile_append_dropWhile (p := Char.isDigit)
                  (l := rest), hw, hds, hbr.1, hbr.2, hrem]
              simp
            · intro hnil
              rw [hds, hnil] at he
              simp at he
            · rw [← hds]
              exact mem_takeWhile_sat Char.isDigit rest
          · rw [if_neg hbr] at h; cases h

/-- Completeness of the token reader on the decomposed form. -/
theorem tryTok_complete (pre ds rem : List Char) (hne : ds ≠ [])
    (hdig : ∀ x ∈ ds, x.isDigit = true) :
    tryTok pre (pre ++ ds ++ '}' :: '}' :: rem) = some (ds, rem) := by
  have hb : ('}' : Char).isDigit = false := by decide
  have h1 := takeWhile_append_all Char.isDigit ds ('}' :: '}' :: rem) hdig
  have ht : (ds ++ '}' :: '}' :: rem).takeWhile Char.isDigit = ds := by
    rw [h1.1, List.takeWhile_cons, hb]
    simp
  have hw : (ds ++ '}' :: '}' :: rem).dropWhile Char.isDigit
      = '}' :: '}' :: rem := by
    rw [h1.2, List.dropWhile_cons, hb]
    simp
  unfold tryTok
  rw [List.append_assoc, dropPre_self]
  simp only [ht, hw, List.isEmpty_iff, tokTail]
  rw [if_neg hne]
  simp

theorem digit_ne_of_not_digit (c d : Char) (h : c.isDigit = true)
    (hd : d.isDigit = false) : ¬ c = d := by
  intro he
  rw [he, hd] at h
  cases h

theorem digit_ne_brace (c : Char) (h : c.isDigit = true) : ¬ c = '{' :=
  digit_ne_of_not_digit c '{' h (by decide)

theorem pyWs_of_digit (c : Char) (h : c.isDigit = true) : pyWs c = false := by
  have key : ∀ d : Char, d.isDigit = false → (c == d) = false := fun d hd =>
    beq_eq_false_iff_ne.mpr (digit_ne_of_not_digit c d h hd)
  simp [pyWs, key ' ' (by decide), key '\t' (by decide), key '\n' (by decide),
    key '\r' (by decide), key '\x0b' (by decide), key '\x0c' (by decide)]

/-- Number-in-range check on an optional token read. -/
def tokNumOk (bound : Nat) (o : Option (List Char × List Char)) : Bool :=
  o.elim false (fun p => decide (1 ≤ valOf p.1 ∧ valOf p.1 < bound))

/-- Head condition of the brace invariant: a suffix beginning with a left
brace reads as a full `IMAGE_ORDER` token with number in `[1, bound)`, or
as the one-brace-shorter view of one (its second character). -/
def brHeadOk (bound : Nat) (s : List Char) : Bool :=
  if s.head? = some '{' then
    tokNumOk bound ((tryTok imageOrderPre s).or (tryTok imageOrderPre1 s))
  else true

/-- The brace invariant: every suffix satisfies the head condition. -/
def wfOrd (bound : Nat) : List Char → Bool
  | [] => true
  | c :: rest => brHeadOk bound (c :: rest) && wfOrd bound rest

theorem wfOrd_cons_iff (bound : Nat) (c : Char) (rest : List Char) :
    wfOrd bound (c :: rest) = true
      ↔ brHeadOk bound (c :: rest) = true ∧ wfOrd bound rest = true := by
  simp [wfOrd]

/-- The full prefix fails on any non-brace head. -/
theorem tryTok_ord_head (c : Char) (t : List Char) (hc : ¬ c = '{') :
    tryTok imageOrderPre (c :: t) = none := by
  show tryTok ('{' :: '{' :: "IMAGE_ORDER_".data) (c :: t) = none
  unfold tryTok
  rw [dropPre, if_neg (fun h => hc h.symm)]

/-- So does the one-brace prefix. -/
theorem tryTok_ord1_head (c : Char) (t : List Char) (hc : ¬ c = '{') :
    tryTok imageOrderPre1 (c :: t) = none := by
  show tryTok ('{' :: "IMAGE_ORDER_".data) (c :: t) = none
  unfold tryTok
  rw [dropPre, if_neg (fun h => hc h.symm)]

/-- The full prefix fails on the one-brace view of a token. -/
theorem tryTok_ord_on_pre1app (X : List Char) :
    tryTok imageOrderPre (imageOrderPre1 ++ X) = none := rfl

/-- The full `IMAGE_ORDER` prefix fails on an `IMAGE_ID` token. -/
theorem tryTok_ord_on_idapp (X : List Char) :
    tryTok imageOrderPre (imageIdPre ++ X) = none := rfl

/-- ... and on its one-brace view. -/
theorem tryTok_ord_on_id1app (X : List Char) :
    tryTok imageOrderPre ('{' :: 'I' :: X) = none := rfl

theorem brHeadOk_nonbrace (bound : Nat) (c : Char) (rest : List Char)
    (hc : ¬ c = '{') : brHeadOk bound (c :: rest) = true := by
  unfold brHeadOk
  rw [List.head?_cons, if_neg (fun h => hc (Option.some.inj h))]

/-- Introduction: the decomposed token view satisfies the head condition. -/
theorem brHeadOk_of_tok (bound : Nat) (P ds rem : List Char)
    (hP : P = imageOrderPre ∨ P = imageOrderPre1)
    (hne : ds ≠ []) (hdig : ∀ x ∈ ds, x.isDigit = true)
    (h1 : 1 ≤ valOf ds) (h2 : valOf ds < bound) :
    brHeadOk bound (P ++ ds ++ '}' :: '}' :: rem) = true := by
  rcases hP with rfl | rfl
  · unfold brHeadOk
    rw [if_pos (show (imageOrderPre ++ ds ++ '}' :: '}' :: rem).head?
          = some '{' from rfl),
      tryTok_complete imageOrderPre ds rem hne hdig]
    simp [tokNumOk, Option.or]
    exact ⟨h1, h2⟩
  · unfold brHeadOk
    rw [if_pos (show (imageOrderPre1 ++ ds ++ '}' :: '}' :: rem).head?
          = some '{' from rfl),
      List.append_assoc, tryTok_ord_on_pre1app,
      ← List.append_assoc, tryTok_complete imageOrderPre1 ds rem hne hdig]
    simp [tokNumOk, Option.or]
    exact ⟨h1, h2⟩

/-- Elimination: a brace-headed suffix of a well-formed string decomposes
as a token (full or one-brace view) with number in range. -/
theorem brHeadOk_elim (bound : Nat) (s : List Char)
    (h : brHeadOk bound s = true) (hbrace : s.head? = some '{') :
    ∃ P ds rem, (P = imageOrderPre ∨ P = imageOrderPre1)
      ∧ s = P ++ ds ++ '}' :: '}' :: rem ∧ ds ≠ []
      ∧ (∀ x ∈ ds, x.isDigit = true) ∧ 1 ≤ valOf ds ∧ valOf ds < bound := by
  unfold brHeadOk at h
  rw [if_pos hbrace] at h
  cases htok : tryTok imageOrderPre s with
  | some p =>
    rw [htok] at h
    simp only [Option.or, tokNumOk, Option.elim, decide_eq_true_eq] at h
    obtain ⟨h3, h4⟩ := tryTok_sound imageOrderPre s p.1 p.2
      (by rw [htok])
    exact ⟨imageOrderPre, p.1, p.2, Or.inl rfl, h3, h4.1, h4.2, h.1, h.2⟩
  | none =>
    rw [htok] at h
    cases htok1 : tryTok imageOrderPre1 s with
    | some p =>
      rw [htok1] at h
      simp only [Option.or, tokNumOk, Option.elim, decide_eq_true_eq] at h
      obtain ⟨h3, h4⟩ := tryTok_sound imageOrderPre1 s p.1 p.2
        (by rw [htok1])
      exact ⟨imageOrderPre1, p.1, p.2, Or.inr rfl, h3, h4.1, h4.2, h.1, h.2⟩
    | none =>
      rw [htok1] at h
      simp [Option.or, tokNumOk] at h

theorem wfOrd_mono (bound bound' : Nat) (hb : bound ≤ bound') :
    ∀ s, wfOrd bound s = true → wfOrd bound' s = true := by
  intro s
  induction s with
  | nil => intro h; rfl
  | cons c rest ih =>
    intro h
    obtain ⟨hhead, htail⟩ := (wfOrd_cons_iff bound c rest).mp h
    refine (wfOrd_cons_iff bound' c rest).mpr ⟨?_, ih htail⟩
    by_cases hc : c = '{'
    · obtain ⟨P, ds, rem, hP, heq, hne, hdig, h1, h2⟩ :=
        brHeadOk_elim bound (c :: rest) hhead (by rw [hc]; rfl)
      rw [heq]
      exact brHeadOk_of_tok bound' P ds rem hP hne hdig h1
        (Nat.lt_of_lt_of_le h2 hb)
    · exact brHeadOk_nonbrace bound' c rest hc

theorem wfOrd_append (bound : Nat) (a b : List Char)
    (ha : wfOrd bound a = true) (hb : wfOrd bound b = true) :
    wfOrd bound (a ++ b) = true := by
  induction a with
  | nil => exact hb
  | cons c a2 ih =>
    obtain ⟨hhead, htail⟩ := (wfOrd_cons_iff bound c a2).mp ha
    rw [List.cons_append]
    refine (wfOrd_cons_iff bound c (a2 ++ b)).mpr ⟨?_, ih htail⟩
    by_cases hc : c = '{'
    · obtain ⟨P, ds, rem, hP, heq, hne, hdig, h1, h2⟩ :=
        brHeadOk_elim bound (c :: a2) hhead (by rw [hc]; rfl)
      have heq2 : c :: (a2 ++ b) = P ++ ds ++ '}' :: '}' :: (rem ++ b) := by
        rw [← List.cons_append, heq]
        simp [List.append_assoc]
      rw [heq2]
      exact brHeadOk_of_tok bound P ds (rem ++ b) hP hne hdig h1 h2
    · exact brHeadOk_nonbrace bound c (a2 ++ b) hc

theorem wfOrd_nonbrace (bound : Nat) (s : List Char)
    (h : nonBra s = true) : wfOrd bound s = true := by
  induction s with
  | nil => rfl
  | cons c rest ih =>
    rw [nonBra, List.all_cons, Bool.and_eq_true_iff] at h
    refine (wfOrd_cons_iff bound c rest).mpr
      ⟨brHeadOk_nonbrace bound c rest ?_, ih h.2⟩
    intro he
    rw [he] at h
    simp at h

theorem wfOrd_suffix (bound : Nat) (a b : List Char)
    (h : wfOrd bound (a ++ b) = true) : wfOrd bound b = true := by
  induction a with
  | nil => exact h
  | cons c a2 ih =>
    rw [List.cons_append] at h
    exact ih ((wfOrd_cons_iff bound c (a2 ++ b)).mp h).2

theorem wfOrd_dropWhile (bound : Nat) (p : Char → Bool) (s : List Char)
    (h : wfOrd bound s = true) : wfOrd bound (s.dropWhile p) = true := by
  induction s with
  | nil => exact h
  | cons c rest ih =>
    rw [List.dropWhile_cons]
    by_cases hp : p c
    · rw [if_pos hp]
      exact ih ((wfOrd_cons_iff bound c rest).mp h).2
    · rw [if_neg hp]
      exact h

/-- Removing one trailing whitespace character preserves the invariant:
tokens contain no whitespace, so the cut is never inside a token. -/
theorem wfOrd_peel_ws (bound : Nat) (t : List Char) (c : Char)
    (hws : pyWs c = true) (h : wfOrd bound (t ++ [c]) = true) :
    wfOrd bound t = true := by
  induction t with
  | nil => rfl
  | cons x t2 ih =>
    rw [List.cons_append] at h
    obtain ⟨hhead, htail⟩ := (wfOrd_cons_iff bound x (t2 ++ [c])).mp h
    refine (wfOrd_cons_iff bound x t2).mpr ⟨?_, ih htail⟩
    by_cases hx : x = '{'
    · obtain ⟨P, ds, rem, hP, heq, hne, hdig, h1, h2⟩ :=
        brHeadOk_elim bound (x :: (t2 ++ [c])) hhead (by rw [hx]; rfl)
      rcases List.eq_nil_or_concat rem with rfl | ⟨rem2, d, rfl⟩
      · exfalso
        have hrev := congrArg List.reverse heq
        simp only [List.reverse_append, List.reverse_cons, List.reverse_nil,
          List.nil_append, List.cons_append, List.append_assoc] at hrev
        rw [List.cons.injEq] at hrev
        rw [hrev.1] at hws
        exact absurd hws (by decide)
      · have heq2 : (x :: t2) ++ [c]
            = (P ++ ds ++ '}' :: '}' :: rem2) ++ [d] := by
          rw [List.cons_append, heq]
          simp [List.append_assoc]
        obtain ⟨hmain, _⟩ :=
          List.append_inj' heq2 (by rfl)
        rw [hmain]
        exact brHeadOk_of_tok bound P ds rem2 hP hne hdig h1 h2
    · exact brHeadOk_nonbrace bound x t2 hx

theorem wfOrd_drop_trailing (bound : Nat) (t : List Char) :
    ∀ w : List Char, (∀ x ∈ w, pyWs x = true) →
      wfOrd bound (t ++ w) = true → wfOrd bound t = true := by
  intro w
  induction w using List.reverseRecOn generalizing t with
  | nil => intro _ h; simpa using h
  | append_singleton w2 d ih =>
    intro hws h
    have hd : pyWs d = true := hws d (by simp)
    have h2 : wfOrd bound (t ++ w2) = true := by
      refine wfOrd_peel_ws bound (t ++ w2) d hd ?_
      rw [List.append_assoc]
      exact h
    exact ih t (fun x hx => hws x (by simp [hx])) h2

theorem rdw_decomp (p : Char → Bool) (u : List Char) :
    ∃ w, u = rdw p u ++ w ∧ ∀ x ∈ w, p x = true := by
  refine ⟨(u.reverse.takeWhile p).reverse, ?_, ?_⟩
  · rw [rdw, ← List.reverse_append, List.takeWhile_append_dropWhile,
      List.reverse_reverse]
  · intro x hx
    rw [List.mem_reverse] at hx
    exact mem_takeWhile_sat p u.reverse x hx

theorem wfOrd_pyStrip (bound : Nat) (s : List Char)
    (h : wfOrd bound s = true) : wfOrd bound (pyStrip s) = true := by
  have h1 : wfOrd bound (s.dropWhile pyWs) = true :=
    wfOrd_dropWhile bound pyWs s h
  obtain ⟨w, hw, hws⟩ := rdw_decomp pyWs (s.dropWhile pyWs)
  rw [hw] at h1
  exact wfOrd_drop_trailing bound (pyStrip s) w hws h1

theorem collapse_nonws_pref (a b : List Char)
    (ha : ∀ x ∈ a, pyWs x = false) :
    collapseWsF false (a ++ b) = a ++ collapseWsF false b := by
  induction a with
  | nil => rfl
  | cons c a2 ih =>
    have hc : pyWs c = false := ha c (List.mem_cons_self c a2)
    rw [List.cons_append, collapseWsF, hc]
    simp only [Bool.false_eq_true, if_false]
    rw [ih (fun x hx => ha x (List.mem_cons_of_mem c hx)), List.cons_append]

/-- All characters of a decomposed token are non-whitespace. -/
theorem tok_nonws (P ds : List Char)
    (hP : P = imageOrderPre ∨ P = imageOrderPre1)
    (hdig : ∀ x ∈ ds, x.isDigit = true) :
    ∀ x ∈ P ++ ds ++ ['}', '}'], pyWs x = false := by
  have hpre : ∀ x ∈ imageOrderPre, pyWs x = false := by decide
  have hpre1 : ∀ x ∈ imageOrderPre1, pyWs x = false := by decide
  have hbr : ∀ x ∈ ['}', '}'], pyWs x = false := by decide
  intro x hx
  simp only [List.mem_append] at hx
  rcases hx with (hx | hx) | hx
  · rcases hP with rfl | rfl
    · exact hpre x hx
    · exact hpre1 x hx
  · exact pyWs_of_digit x (hdig x hx)
  · exact hbr x hx

theorem wfOrd_collapseF (bound : Nat) (s : List Char)
    (h : wfOrd bound s = true) :
    ∀ flag, wfOrd bound (collapseWsF flag s) = true := by
  induction s with
  | nil => intro flag; rfl
  | cons c rest ih =>
    intro flag
    obtain ⟨hhead, htail⟩ := (wfOrd_cons_iff bound c rest).mp h
    rw [collapseWsF]
    by_cases hws : pyWs c
    · rw [hws]
      simp only [if_true]
      by_cases hf : flag
      · rw [if_pos hf]
        exact ih htail true
      · rw [if_neg hf]
        exact (wfOrd_cons_iff bound ' ' _).mpr
          ⟨brHeadOk_nonbrace bound ' ' _ (by decide), ih htail true⟩
    · rw [Bool.not_eq_true] at hws
      rw [hws]
      simp only [Bool.false_eq_true, if_false]
      refine (wfOrd_cons_iff bound c _).mpr ⟨?_, ih htail false⟩
      by_cases hc : c = '{'
      · obtain ⟨P, ds, rem, hP, heq, hne, hdig, h1, h2⟩ :=
          brHeadOk_elim bound (c :: rest) hhead (by rw [hc]; rfl)
        have hnws : ∀ x ∈ P.drop 1 ++ ds ++ ['}', '}'], pyWs x = false := by
          intro x hx
          refine tok_nonws P ds hP hdig x ?_
          simp only [List.mem_append] at hx ⊢
          rcases hx with (hx | hx) | hx
          · exact Or.inl (Or.inl (List.mem_of_mem_drop hx))
          · exact Or.inl (Or.inr hx)
          · exact Or.inr hx
        have hcons : P ++ ds ++ '}' :: '}' :: rem
            = c :: ((P.drop 1 ++ ds ++ ['}', '}']) ++ rem) := by
          rcases hP with rfl | rfl <;>
          · rw [hc]
            simp only [List.append_assoc, List.cons_append]
            rfl
        have hrest : rest = (P.drop 1 ++ ds ++ ['}', '}']) ++ rem :=
          (List.cons.injEq .. |>.mp (heq.trans hcons)).2
        rw [hrest, collapse_nonws_pref _ _ hnws]
        have hshape : c :: ((P.drop 1 ++ ds ++ ['}', '}'])
              ++ collapseWsF false rem)
            = P ++ ds ++ '}' :: '}' :: collapseWsF false rem := by
          rcases hP with rfl | rfl <;>
          · rw [hc]
            simp only [List.append_assoc, List.cons_append]
            rfl
        rw [hshape]
        exact brHeadOk_of_tok bound P ds (collapseWsF false rem)
          hP hne hdig h1 h2
      · exact brHeadOk_nonbrace bound c _ hc

theorem wfOrd_joinSep (bound : Nat) (sep : List Char)
    (hsep : nonBra sep = true) :
    ∀ parts : List (List Char), (∀ p ∈ parts, wfOrd bound p = true) →
      wfOrd bound (joinSep sep parts) = true := by
  intro parts
  induction parts with
  | nil => intro _; rfl
  | cons p ps ih =>
    intro hall
    cases ps with
    | nil => exact hall p (by simp)
    | cons q qs =>
      show wfOrd bound (p ++ sep ++ joinSep sep (q :: qs)) = true
      refine wfOrd_append bound _ _
        (wfOrd_append bound _ _ (hall p (by simp))
          (wfOrd_nonbrace bound sep hsep)) (ih ?_)
      intro r hr
      exact hall r (List.mem_cons_of_mem p hr)

/-- A full-token read at a position of a well-formed string has its number
in `[1, bound)`. -/
theorem wfOrd_head_bounds (bound : Nat) (c : Char) (rest : List Char)
    (p : List Char × List Char)
    (hhead : brHeadOk bound (c :: rest) = true)
    (htok : tryTok imageOrderPre (c :: rest) = some p) :
    1 ≤ valOf p.1 ∧ valOf p.1 < bound := by
  have hdec := tryTok_sound imageOrderPre (c :: rest) p.1 p.2 (by rw [htok])
  have hc : c = '{' := by
    have h5 := congrArg List.head? hdec.1
    rw [List.head?_cons] at h5
    rw [show (imageOrderPre ++ p.1 ++ '}' :: '}' :: p.2).head?
        = some '{' from rfl] at h5
    exact Option.some.inj h5
  unfold brHeadOk at hhead
  rw [if_pos (by rw [List.head?_cons, hc]), htok] at hhead
  simp only [Option.or, tokNumOk, Option.elim, decide_eq_true_eq] at hhead
  exact hhead

/-- Every token number readable in a well-formed string is in range. -/
theorem ordToksIn_bounds (bound : Nat) :
    ∀ s, wfOrd bound s = true → ∀ n ∈ ordToksIn s, 1 ≤ n ∧ n < bound := by
  intro s
  induction s with
  | nil => intro _ n hn; simp [ordToksIn] at hn
  | cons c rest ih =>
    intro h n hn
    obtain ⟨hhead, htail⟩ := (wfOrd_cons_iff bound c rest).mp h
    cases htok : tryTok imageOrderPre (c :: rest) with
    | none =>
      simp only [ordToksIn, htok] at hn
      exact ih htail n hn
    | some p =>
      simp only [ordToksIn, htok] at hn
      rcases List.mem_cons.mp hn with rfl | hn2
      · exact wfOrd_head_bounds bound c rest p hhead htok
      · exact ih htail n hn2

theorem ordToksIn_nonbrace_pref (a R : List Char)
    (ha : ∀ x ∈ a, ¬ x = '{') :
    ordToksIn (a ++ R) = ordToksIn R := by
  induction a with
  | nil => rfl
  | cons c a2 ih =>
    rw [List.cons_append]
    simp only [ordToksIn,
      tryTok_ord_head c (a2 ++ R) (ha c (List.mem_cons_self c a2))]
    exact ih (fun x hx => ha x (List.mem_cons_of_mem c hx))

theorem natDigs_nonbrace (k : Nat) : ∀ x ∈ natDigs k, ¬ x = '{' :=
  fun x hx => digit_ne_brace x (natDigs_all_digits k x hx)

/-- The full `IMAGE_ORDER` prefix fails on the 9-char head of an
`IMAGE_ID` token (mismatch at the ninth character). -/
theorem tryTok_ord_idA (t : List Char) :
    tryTok imageOrderPre
      ('{' :: '{' :: 'I' :: 'M' :: 'A' :: 'G' :: 'E' :: '_' :: 'I' :: t)
      = none := rfl

theorem tryTok_ord_idB (t : List Char) :
    tryTok imageOrderPre ('{' :: 'I' :: t) = none := rfl

/-- One controlled unfolding step of the token scan. -/
theorem ordToksIn_cons_none (c : Char) (rest : List Char)
    (h : tryTok imageOrderPre (c :: rest) = none) :
    ordToksIn (c :: rest) = ordToksIn rest := by
  simp only [ordToksIn, h]

/-- Replacement tokens are invisible to the `IMAGE_ORDER` scan. -/
theorem ordToksIn_idTok (k : Nat) (R : List Char) :
    ordToksIn (imageIdTok k ++ R) = ordToksIn R := by
  have h0 : imageIdTok k ++ R
      = '{' :: '{' :: 'I' :: 'M' :: 'A' :: 'G' :: 'E' :: '_' :: 'I' :: 'D'
          :: '_' :: (natDigs k ++ ('}' :: '}' :: R)) := by
    rw [imageIdTok, List.append_assoc, List.append_assoc]
    rfl
  rw [h0, ordToksIn_cons_none _ _ (tryTok_ord_idA _),
    ordToksIn_cons_none _ _ (tryTok_ord_idB _)]
  have h1 : 'I' :: 'M' :: 'A' :: 'G' :: 'E' :: '_' :: 'I' :: 'D' :: '_'
        :: (natDigs k ++ ('}' :: '}' :: R))
      = ('I' :: 'M' :: 'A' :: 'G' :: 'E' :: '_' :: 'I' :: 'D' :: '_'
          :: (natDigs k ++ ['}', '}'])) ++ R := by
    simp [List.append_assoc]
  rw [h1, ordToksIn_nonbrace_pref]
  intro x hx
  simp only [List.mem_cons, List.mem_append] at hx
  rcases hx with rfl | rfl | rfl | rfl | rfl | rfl | rfl | rfl | rfl | hx2
  · exact (by decide)
  · exact (by decide)
  · exact (by decide)
  · exact (by decide)
  · exact (by decide)
  · exact (by decide)
  · exact (by decide)
  · exact (by decide)
  · exact (by decide)
  · rcases hx2 with hdig | hbr2
    · exact natDigs_nonbrace k x hdig
    · rcases hbr2 with rfl | rfl | h0
      · exact (by decide)
      · exact (by decide)
      · simp at h0

/-- After the post-pass rewrite of a well-formed content with the id map
defined on the whole range, no `IMAGE_ORDER` token is readable anywhere. -/
theorem ordToksIn_rewrite (idMap : Nat → Option Nat) (bound : Nat)
    (hid : ∀ n, 1 ≤ n → n < bound → (idMap n).isSome = true) :
    ∀ fuel s, s.length ≤ fuel → wfOrd bound s = true →
      ordToksIn (rewriteToks idMap fuel s) = [] := by
  intro fuel
  induction fuel with
  | zero =>
    intro s hlen hwf
    have hnil : s = [] := List.eq_nil_of_length_eq_zero (Nat.le_zero.mp hlen)
    subst hnil
    rfl
  | succ fuel ih =>
    intro s hlen hwf
    cases s with
    | nil => rfl
    | cons c rest =>
      obtain ⟨hhead, htail⟩ := (wfOrd_cons_iff bound c rest).mp hwf
      rw [List.length_cons] at hlen
      have hlen2 : rest.length ≤ fuel := Nat.lt_succ_iff.mp hlen
      cases htok : tryTok imageOrderPre (c :: rest) with
      | some p =>
        obtain ⟨hdec, hne, hdig⟩ :=
          tryTok_sound imageOrderPre (c :: rest) p.1 p.2 (by rw [htok])
        have hb := wfOrd_head_bounds bound c rest p hhead htok
        obtain ⟨idv, hidv⟩ := Option.isSome_iff_exists.mp
          (hid (valOf p.1) hb.1 hb.2)
        have ha : c :: rest = (imageOrderPre ++ p.1 ++ ['}', '}']) ++ p.2 := by
          rw [hdec]
          simp [List.append_assoc]
        have hwf2 : wfOrd bound p.2 = true := by
          refine wfOrd_suffix bound (imageOrderPre ++ p.1 ++ ['}', '}']) p.2 ?_
          rw [← ha]
          exact hwf
        have hlp : p.2.length ≤ fuel := by
          have hl := congrArg List.length ha
          simp only [List.length_cons, List.length_append] at hl
          omega
        simp only [rewriteToks, htok, hidv]
        rw [ordToksIn_idTok]
        exact ih p.2 hlp hwf2
      | none =>
        simp only [rewriteToks, htok]
        by_cases hc : c = '{'
        · obtain ⟨P, ds, rem, hP, heq, hneds, hdigds, hb1, hb2⟩ :=
            brHeadOk_elim bound (c :: rest) hhead (by rw [hc]; rfl)
          rcases hP with rfl | rfl
          · exfalso
            rw [heq, tryTok_complete imageOrderPre ds rem hneds hdigds]
              at htok
            cases htok
          · have hrest : rest
                = 'I' :: ("MAGE_ORDER_".data ++ (ds ++ '}' :: '}' :: rem)) := by
              have h3 : c :: rest
                  = '{' :: 'I'
                      :: ("MAGE_ORDER_".data ++ (ds ++ '}' :: '}' :: rem)) := by
                rw [heq]
                simp only [List.append_assoc]
                rfl
              exact (List.cons.injEq .. |>.mp h3).2
            have hfe : 1 ≤ fuel := by
              rw [hrest] at hlen2
              simp at hlen2
              omega
            obtain ⟨f2, rfl⟩ := Nat.exists_eq_add_of_le hfe
            have hR : rewriteToks idMap (1 + f2) rest
                = 'I' :: rewriteToks idMap f2
                    ("MAGE_ORDER_".data ++ (ds ++ '}' :: '}' :: rem)) := by
              rw [hrest, Nat.add_comm 1 f2]
              simp only [rewriteToks,
                tryTok_ord_head 'I' _ (by decide)]
            have hRnil : ordToksIn (rewriteToks idMap (1 + f2) rest) = [] :=
              ih rest hlen2 htail
            rw [hR] at hRnil ⊢
            rw [hc]
            simp only [ordToksIn, tryTok_ord_idB,
              tryTok_ord_head 'I' _ (by decide)] at hRnil ⊢
            exact hRnil
        · rw [ordToksIn_cons_none c (rewriteToks idMap fuel rest)
            (tryTok_ord_head c _ hc)]
          exact ih rest hlen2 htail

theorem nonBra_natDigs (n : Nat) : nonBra (natDigs n) = true := by
  rw [nonBra, List.all_eq_true]
  intro x hx
  exact bne_iff_ne.mpr (natDigs_nonbrace n x hx)

theorem range'_snoc (s n : Nat) :
    List.range' s (n + 1) = List.range' s n ++ [s + n] := by
  induction n generalizing s with
  | zero => simp [List.range']
  | succ n ih =>
    rw [List.range'_succ, ih (s + 1), List.range'_succ]
    simp [Nat.add_assoc, Nat.add_comm 1 n]

/-- The emitted placeholder satisfies the brace invariant at any bound
above its number. -/
theorem wfOrd_imageOrderTok (bound n : Nat) (h1 : 1 ≤ n) (h2 : n < bound) :
    wfOrd bound (imageOrderTok n) = true := by
  have hv1 : 1 ≤ valOf (natDigs n) := by rw [valOf_natDigs]; exact h1
  have hv2 : valOf (natDigs n) < bound := by rw [valOf_natDigs]; exact h2
  have he : imageOrderTok n
      = '{' :: (imageOrderPre1 ++ (natDigs n ++ ['}', '}'])) := rfl
  rw [he]
  refine (wfOrd_cons_iff _ _ _).mpr ⟨?_, ?_⟩
  · have hform : '{' :: (imageOrderPre1 ++ (natDigs n ++ ['}', '}']))
        = imageOrderPre ++ natDigs n ++ '}' :: '}' :: [] := rfl
    rw [hform]
    exact brHeadOk_of_tok bound imageOrderPre (natDigs n) [] (Or.inl rfl)
      (natDigs_ne_nil n) (natDigs_all_digits n) hv1 hv2
  · have he2 : imageOrderPre1 ++ (natDigs n ++ ['}', '}'])
        = '{' :: ("IMAGE_ORDER_".data ++ (natDigs n ++ ['}', '}'])) := rfl
    rw [he2]
    refine (wfOrd_cons_iff _ _ _).mpr ⟨?_, ?_⟩
    · have hform2 : '{' :: ("IMAGE_ORDER_".data ++ (natDigs n ++ ['}', '}']))
          = imageOrderPre1 ++ natDigs n ++ '}' :: '}' :: [] := rfl
      rw [hform2]
      exact brHeadOk_of_tok bound imageOrderPre1 (natDigs n) [] (Or.inr rfl)
        (natDigs_ne_nil n) (natDigs_all_digits n) hv1 hv2
    · refine wfOrd_nonbrace bound _ ?_
      rw [show ("IMAGE_ORDER_".data ++ (natDigs n ++ ['}', '}']))
          = "IMAGE_ORDER_".data ++ natDigs n ++ ['}', '}'] by
        simp [List.append_assoc]]
      rw [nonBra, List.all_append, List.all_append]
      rw [show List.all "IMAGE_ORDER_".data (fun c => c != '{') = true by decide]
      rw [show List.all ['}', '}'] (fun c => c != '{') = true by decide]
      rw [show List.all (natDigs n) (fun c => c != '{') = true from
        nonBra_natDigs n]
      rfl

/-- Counter/images consistency of the inline state: the next order to
assign is one past the number of recorded images, whose orders are
`1, 2, …` in encounter order. -/
def ImgInv (st : ISt) : Prop :=
  st.imgCounter = st.images.length + 1
  ∧ st.images.map ImgRec.orderInDoc = List.range' 1 st.images.length

theorem drawing_fold (tid bidx : Nat) (rids : List Bool) :
    ∀ acc : List Char × ISt, ImgInv acc.2 →
      wfOrd acc.2.imgCounter acc.1 = true →
      ImgInv (List.foldl (drawStep tid bidx) acc rids).2
      ∧ acc.2.imgCounter
          ≤ (List.foldl (drawStep tid bidx) acc rids).2.imgCounter
      ∧ wfOrd (List.foldl (drawStep tid bidx) acc rids).2.imgCounter
          (List.foldl (drawStep tid bidx) acc rids).1 = true := by
  induction rids with
  | nil => intro acc hinv hwf; exact ⟨hinv, Nat.le_refl _, hwf⟩
  | cons ok rids ih =>
    intro acc hinv hwf
    rw [List.foldl_cons]
    cases ok with
    | false =>
      have hid : drawStep tid bidx acc false = acc := by
        simp [drawStep]
      rw [hid]
      exact ih acc hinv hwf
    | true =>
      have hone : 1 ≤ acc.2.imgCounter := by
        rw [hinv.1]; omega
      have hinv2 : ImgInv (drawStep tid bidx acc true).2 := by
        constructor
        · simp [drawStep, hinv.1]
        · simp only [drawStep, if_pos trivial]
          rw [List.map_append, hinv.2]
          simp [hinv.1, range'_snoc, Nat.add_comm]
      have hctr : (drawStep tid bidx acc true).2.imgCounter
          = acc.2.imgCounter + 1 := by simp [drawStep]
      have hwf2 : wfOrd (drawStep tid bidx acc true).2.imgCounter
          (drawStep tid bidx acc true).1 = true := by
        rw [hctr]
        simp only [drawStep, if_pos trivial]
        refine wfOrd_append _ _ _
          (wfOrd_mono _ _ (Nat.le_succ _) _ hwf) ?_
        exact wfOrd_imageOrderTok _ _ hone (Nat.lt_succ_self _)
      obtain ⟨h1, h2, h3⟩ := ih (drawStep tid bidx acc true) hinv2 hwf2
      exact ⟨h1, le_trans (hctr ▸ Nat.le_succ _) h2, h3⟩

theorem runChildren_fold (tid bidx : Nat) (children : List RunChild)
    (hok : children.all textOkRC = true) :
    ∀ acc : List Char × ISt, ImgInv acc.2 →
      wfOrd acc.2.imgCounter acc.1 = true →
      ImgInv (List.foldl (runChildStep tid bidx) acc children).2
      ∧ acc.2.imgCounter
          ≤ (List.foldl (runChildStep tid bidx) acc children).2.imgCounter
      ∧ wfOrd (List.foldl (runChildStep tid bidx) acc children).2.imgCounter
          (List.foldl (runChildStep tid bidx) acc children).1 = true := by
  induction children with
  | nil => intro acc hinv hwf; exact ⟨hinv, Nat.le_refl _, hwf⟩
  | cons child children ih =>
    rw [List.all_cons, Bool.and_eq_true_iff] at hok
    intro acc hinv hwf
    rw [List.foldl_cons]
    cases child with
    | t txt =>
      by_cases hemp : txt.isEmpty = true
      · have hstep : runChildStep tid bidx acc (RunChild.t txt) = acc := by
          simp [runChildStep, hemp]
        rw [hstep]
        exact ih hok.2 acc hinv hwf
      · have hstep : runChildStep tid bidx acc (RunChild.t txt)
            = (acc.1 ++ txt, acc.2) := by
          simp [runChildStep, hemp]
        rw [hstep]
        exact ih hok.2 _ hinv
          (wfOrd_append _ _ _ hwf (wfOrd_nonbrace _ txt hok.1))
    | tab =>
      exact ih hok.2 _ hinv
        (wfOrd_append _ _ _ hwf (wfOrd_nonbrace _ ['\t'] (by decide)))
    | br =>
      exact ih hok.2 _ hinv
        (wfOrd_append _ _ _ hwf (wfOrd_nonbrace _ ['\n'] (by decide)))
    | drawing rids =>
      obtain ⟨h1, h2, h3⟩ := drawing_fold tid bidx rids acc hinv hwf
      obtain ⟨h4, h5, h6⟩ := ih hok.2 _ h1 h3
      exact ⟨h4, le_trans h2 h5, h6⟩

theorem parseRunChildren_inv (tid bidx : Nat) (st : ISt) (r : WRun)
    (hok : runOk r = true) (hinv : ImgInv st) :
    ImgInv (parseRunChildren tid bidx st r).2
    ∧ st.imgCounter ≤ (parseRunChildren tid bidx st r).2.imgCounter
    ∧ wfOrd (parseRunChildren tid bidx st r).2.imgCounter
        (parseRunChildren tid bidx st r).1 = true := by
  rw [runOk, Bool.and_eq_true_iff] at hok
  obtain ⟨h1, h2, h3⟩ := runChildren_fold tid bidx r.children hok.1
    ([], st) hinv rfl
  rw [parseRunChildren]
  by_cases hcase : (r.children.foldl (runChildStep tid bidx) ([], st)).1.isEmpty
      && !r.text.isEmpty
  · rw [if_pos hcase]
    exact ⟨h1, h2, wfOrd_nonbrace _ r.text hok.2⟩
  · rw [if_neg hcase]
    exact ⟨h1, h2, h3⟩

theorem runsFold_inv (tid bidx : Nat) :
    ∀ rs : List WRun, rs.all runOk = true →
      ∀ acc : List Char × ISt, ImgInv acc.2 →
      wfOrd acc.2.imgCounter acc.1 = true →
      ImgInv (rs.foldl (fun acc r =>
          let q := parseRunChildren tid bidx acc.2 r
          (acc.1 ++ q.1, q.2)) acc).2
      ∧ acc.2.imgCounter ≤ (rs.foldl (fun acc r =>
          let q := parseRunChildren tid bidx acc.2 r
          (acc.1 ++ q.1, q.2)) acc).2.imgCounter
      ∧ wfOrd (rs.foldl (fun acc r =>
          let q := parseRunChildren tid bidx acc.2 r
          (acc.1 ++ q.1, q.2)) acc).2.imgCounter
          (rs.foldl (fun acc r =>
          let q := parseRunChildren tid bidx acc.2 r
          (acc.1 ++ q.1, q.2)) acc).1 = true := by
  intro rs
  induction rs with
  | nil => intro _ acc hinv hwf; exact ⟨hinv, Nat.le_refl _, hwf⟩
  | cons r rs ih =>
    intro hok acc hinv hwf
    rw [List.all_cons, Bool.and_eq_true_iff] at hok
    rw [List.foldl_cons]
    obtain ⟨h1, h2, h3⟩ :=
      parseRunChildren_inv tid bidx acc.2 r hok.1 hinv
    obtain ⟨h4, h5, h6⟩ := ih hok.2
      (acc.1 ++ (parseRunChildren tid bidx acc.2 r).1,
        (parseRunChildren tid bidx acc.2 r).2) h1
      (wfOrd_append _ _ _ (wfOrd_mono _ _ h2 _ hwf) h3)
    exact ⟨h4, le_trans h2 h5, h6⟩

theorem parseParagraphInline_inv (tid bidx : Nat) (st : ISt)
    (runs : List WRun) (hok : runs.all runOk = true) (hinv : ImgInv st) :
    ImgInv (parseParagraphInline tid bidx st runs).2
    ∧ st.imgCounter ≤ (parseParagraphInline tid bidx st runs).2.imgCounter
    ∧ wfOrd (parseParagraphInline tid bidx st runs).2.imgCounter
        (parseParagraphInline tid bidx st runs).1 = true := by
  obtain ⟨h1, h2, h3⟩ := runsFold_inv tid bidx runs hok ([], st) hinv rfl
  exact ⟨h1, h2, wfOrd_pyStrip _ _ h3⟩

theorem parasFold_inv (tid bidx : Nat) :
    ∀ ps : List WPara, ps.all paraOk = true →
      ∀ acc : List (List Char) × ISt, ImgInv acc.2 →
      (∀ f ∈ acc.1, wfOrd acc.2.imgCounter f = true) →
      ImgInv (ps.foldl (fun acc pa =>
          let q := parseParagraphInline tid bidx acc.2 pa.runs
          (if q.1.isEmpty then acc.1 else acc.1 ++ [q.1], q.2)) acc).2
      ∧ acc.2.imgCounter ≤ (ps.foldl (fun acc pa =>
          let q := parseParagraphInline tid bidx acc.2 pa.runs
          (if q.1.isEmpty then acc.1 else acc.1 ++ [q.1], q.2)) acc).2.imgCounter
      ∧ ∀ f ∈ (ps.foldl (fun acc pa =>
          let q := parseParagraphInline tid bidx acc.2 pa.runs
          (if q.1.isEmpty then acc.1 else acc.1 ++ [q.1], q.2)) acc).1,
          wfOrd (ps.foldl (fun acc pa =>
          let q := parseParagraphInline tid bidx acc.2 pa.runs
          (if q.1.isEmpty then acc.1 else acc.1 ++ [q.1], q.2)) acc).2.imgCounter
            f = true := by
  intro ps
  induction ps with
  | nil => intro _ acc hinv hfr; exact ⟨hinv, Nat.le_refl _, hfr⟩
  | cons pa ps ih =>
    intro hok acc hinv hfr
    rw [List.all_cons, Bool.and_eq_true_iff] at hok
    rw [List.foldl_cons]
    obtain ⟨h1, h2, h3⟩ :=
      parseParagraphInline_inv tid bidx acc.2 pa.runs hok.1 hinv
    have hfr2 : ∀ f ∈ (if (parseParagraphInline tid bidx acc.2 pa.runs).1.isEmpty
          then acc.1
          else acc.1 ++ [(parseParagraphInline tid bidx acc.2 pa.runs).1]),
        wfOrd (parseParagraphInline tid bidx acc.2 pa.runs).2.imgCounter f
          = true := by
      intro f hf
      by_cases hemp :
          (parseParagraphInline tid bidx acc.2 pa.runs).1.isEmpty = true
      · rw [if_pos hemp] at hf
        exact wfOrd_mono _ _ h2 f (hfr f hf)
      · rw [if_neg hemp] at hf
        rcases List.mem_append.mp hf with hf2 | hf2
        · exact wfOrd_mono _ _ h2 f (hfr f hf2)
        · rw [List.mem_singleton] at hf2
          subst hf2
          exact h3
    obtain ⟨h4, h5, h6⟩ := ih hok.2
      (if (parseParagraphInline tid bidx acc.2 pa.runs).1.isEmpty
          then acc.1
          else acc.1 ++ [(parseParagraphInline tid bidx acc.2 pa.runs).1],
        (parseParagraphInline tid bidx acc.2 pa.runs).2) h1 hfr2
    exact ⟨h4, le_trans h2 h5, h6⟩

theorem parseCell_inv (tid bidx : Nat) (st : ISt) (c : WCell)
    (hok : cellOk c = true) (hinv : ImgInv st) :
    ImgInv (parseCell tid bidx st c).2
    ∧ st.imgCounter ≤ (parseCell tid bidx st c).2.imgCounter
    ∧ wfOrd (parseCell tid bidx st c).2.imgCounter
        (parseCell tid bidx st c).1 = true := by
  obtain ⟨h1, h2, h3⟩ := parasFold_inv tid bidx c.paras hok ([], st) hinv
    (by intro f hf; simp at hf)
  refine ⟨h1, h2, ?_⟩
  refine wfOrd_pyStrip _ _ (wfOrd_joinSep _ ['\n'] (by decide) _ ?_)
  exact h3

theorem cellsFold_inv (tid bidx : Nat) :
    ∀ row : List WCell, row.all cellOk = true →
      ∀ acc : List (List Char) × ISt, ImgInv acc.2 →
      (∀ f ∈ acc.1, wfOrd acc.2.imgCounter f = true) →
      ImgInv (row.foldl (fun a c =>
          let r := parseCell tid bidx a.2 c
          (a.1 ++ [pyStrip (collapseWs r.1)], r.2)) acc).2
      ∧ acc.2.imgCounter ≤ (row.foldl (fun a c =>
          let r := parseCell tid bidx a.2 c
          (a.1 ++ [pyStrip (collapseWs r.1)], r.2)) acc).2.imgCounter
      ∧ ∀ f ∈ (row.foldl (fun a c =>
          let r := parseCell tid bidx a.2 c
          (a.1 ++ [pyStrip (collapseWs r.1)], r.2)) acc).1,
          wfOrd (row.foldl (fun a c =>
          let r := parseCell tid bidx a.2 c
          (a.1 ++ [pyStrip (collapseWs r.1)], r.2)) acc).2.imgCounter
            f = true := by
  intro row
  induction row with
  | nil => intro _ acc hinv hfr; exact ⟨hinv, Nat.le_refl _, hfr⟩
  | cons c row ih =>
    intro hok acc hinv hfr
    rw [List.all_cons, Bool.and_eq_true_iff] at hok
    rw [List.foldl_cons]
    obtain ⟨h1, h2, h3⟩ := parseCell_inv tid bidx acc.2 c hok.1 hinv
    have hfr2 : ∀ f ∈ acc.1
          ++ [pyStrip (collapseWs (parseCell tid bidx acc.2 c).1)],
        wfOrd (parseCell tid bidx acc.2 c).2.imgCounter f = true := by
      intro f hf
      rcases List.mem_append.mp hf with hf2 | hf2
      · exact wfOrd_mono _ _ h2 f (hfr f hf2)
      · rw [List.mem_singleton] at hf2
        subst hf2
        exact wfOrd_pyStrip _ _ (wfOrd_collapseF _ _ h3 false)
    obtain ⟨h4, h5, h6⟩ := ih hok.2
      (acc.1 ++ [pyStrip (collapseWs (parseCell tid bidx acc.2 c).1)],
        (parseCell tid bidx acc.2 c).2) h1 hfr2
    exact ⟨h4, le_trans h2 h5, h6⟩

theorem rowsFold_inv (tid bidx : Nat) :
    ∀ rows : List (List WCell),
      rows.all (fun row => row.all cellOk) = true →
      ∀ acc : List (List Char) × ISt, ImgInv acc.2 →
      (∀ f ∈ acc.1, wfOrd acc.2.imgCounter f = true) →
      ImgInv (rows.foldl (fun acc row =>
          let q := row.foldl (fun a c =>
            let r := parseCell tid bidx a.2 c
            (a.1 ++ [pyStrip (collapseWs r.1)], r.2)) ([], acc.2)
          (acc.1 ++ ["| ".data ++ joinSep " | ".data q.1 ++ " |".data], q.2))
          acc).2
      ∧ acc.2.imgCounter ≤ (rows.foldl (fun acc row =>
          let q := row.foldl (fun a c =>
            let r := parseCell tid bidx a.2 c
            (a.1 ++ [pyStrip (collapseWs r.1)], r.2)) ([], acc.2)
          (acc.1 ++ ["| ".data ++ joinSep " | ".data q.1 ++ " |".data], q.2))
          acc).2.imgCounter
      ∧ ∀ f ∈ (rows.foldl (fun acc row =>
          let q := row.foldl (fun a c =>
            let r := parseCell tid bidx a.2 c
            (a.1 ++ [pyStrip (collapseWs r.1)], r.2)) ([], acc.2)
          (acc.1 ++ ["| ".data ++ joinSep " | ".data q.1 ++ " |".data], q.2))
          acc).1,
          wfOrd (rows.foldl (fun acc row =>
          let q := row.foldl (fun a c =>
            let r := parseCell tid bidx a.2 c
            (a.1 ++ [pyStrip (collapseWs r.1)], r.2)) ([], acc.2)
          (acc.1 ++ ["| ".data ++ joinSep " | ".data q.1 ++ " |".data], q.2))
          acc).2.imgCounter f = true := by
  intro rows
  induction rows with
  | nil => intro _ acc hinv hfr; exact ⟨hinv, Nat.le_refl _, hfr⟩
  | cons row rows ih =>
    intro hok acc hinv hfr
    rw [List.all_cons, Bool.and_eq_true_iff] at hok
    rw [List.foldl_cons]
    obtain ⟨h1, h2, h3⟩ := cellsFold_inv tid bidx row hok.1 ([], acc.2) hinv
      (by intro f hf; simp at hf)
    have hfr2 : ∀ f ∈ acc.1 ++ ["| ".data ++ joinSep " | ".data
          (row.foldl (fun a c =>
            let r := parseCell tid bidx a.2 c
            (a.1 ++ [pyStrip (collapseWs r.1)], r.2)) ([], acc.2)).1
          ++ " |".data],
        wfOrd (row.foldl (fun a c =>
          let r := parseCell tid bidx a.2 c
          (a.1 ++ [pyStrip (collapseWs r.1)], r.2))
            ([], acc.2)).2.imgCounter f = true := by
      intro f hf
      rcases List.mem_append.mp hf with hf2 | hf2
      · exact wfOrd_mono _ _ h2 f (hfr f hf2)
      · rw [List.mem_singleton] at hf2
        subst hf2
        refine wfOrd_append _ _ _ (wfOrd_append _ _ _
          (wfOrd_nonbrace _ "| ".data (by decide))
          (wfOrd_joinSep _ " | ".data (by decide) _ h3))
          (wfOrd_nonbrace _ " |".data (by decide))
    obtain ⟨h4, h5, h6⟩ := ih hok.2
      (acc.1 ++ ["| ".data ++ joinSep " | ".data
          (row.foldl (fun a c =>
            let r := parseCell tid bidx a.2 c
            (a.1 ++ [pyStrip (collapseWs r.1)], r.2)) ([], acc.2)).1
          ++ " |".data],
        (row.foldl (fun a c =>
          let r := parseCell tid bidx a.2 c
          (a.1 ++ [pyStrip (collapseWs r.1)], r.2)) ([], acc.2)).2) h1 hfr2
    exact ⟨h4, le_trans h2 h5, h6⟩

theorem parseTable_inv (tid bidx : Nat) (st : ISt)
    (rows : List (List WCell))
    (hok : rows.all (fun row => row.all cellOk) = true) (hinv : ImgInv st) :
    ImgInv (parseTable tid bidx st rows).2
    ∧ st.imgCounter ≤ (parseTable tid bidx st rows).2.imgCounter
    ∧ wfOrd (parseTable tid bidx st rows).2.imgCounter
        (parseTable tid bidx st rows).1 = true := by
  obtain ⟨h1, h2, h3⟩ := rowsFold_inv tid bidx rows hok ([], st) hinv
    (by intro f hf; simp at hf)
  refine ⟨h1, h2, ?_⟩
  refine wfOrd_joinSep _ ['\n'] (by decide) _ ?_
  intro p hp
  rcases List.mem_cons.mp hp with rfl | hp2
  · exact wfOrd_nonbrace _ "[表格]".data (by decide)
  · rcases List.mem_append.mp hp2 with hp3 | hp3
    · exact h3 p hp3
    · rw [List.mem_singleton] at hp3
      subst hp3
      exact wfOrd_nonbrace _ "[/表格]".data (by decide)

/-- Wherever a token is readable, the prefix occurs as a substring. -/
theorem containsSub_of_tok (s : List Char) (hne : ordToksIn s ≠ []) :
    containsSub imageOrderPre s = true := by
  induction s with
  | nil => simp [ordToksIn] at hne
  | cons c rest ih =>
    rw [containsSub]
    cases htok : tryTok imageOrderPre (c :: rest) with
    | some p =>
      have hdec := (tryTok_sound _ _ p.1 p.2 (by rw [htok])).1
      have hpre : imageOrderPre.isPrefixOf (c :: rest) = true := by
        rw [hdec]
        exact List.isPrefixOf_iff_prefix.mpr
          ⟨p.1 ++ '}' :: '}' :: p.2, by simp [List.append_assoc]⟩
      rw [hpre, Bool.true_or]
    | none =>
      rw [ordToksIn_cons_none c rest htok] at hne
      rw [ih hne, Bool.or_true]

/-- The C4 streaming invariant: the counter is one past the image count,
orders are `1, 2, …` in encounter order, and every stored content fragment
satisfies the brace invariant below the counter. -/
def C4Inv (st : PSt) : Prop :=
  st.imgCounter = st.images.length + 1
  ∧ st.images.map ImgRec.orderInDoc = List.range' 1 st.images.length
  ∧ ∀ c ∈ chapList st, ∀ f ∈ c.contentList, wfOrd st.imgCounter f = true

theorem c4Inv_paraBody (st : PSt) (runs : List WRun)
    (hok : runs.all runOk = true) (hinv : C4Inv st) :
    C4Inv (paraBody st runs) := by
  obtain ⟨hc, ho, hfr⟩ := hinv
  obtain ⟨h1, h2, h3⟩ := parseParagraphInline_inv st.cur.tempId st.blockIndex
    ⟨st.imgCounter, st.images, st.cur.imgPos⟩ runs hok ⟨hc, ho⟩
  refine ⟨h1.1, h1.2, ?_⟩
  intro c hc2 f hf
  rcases List.mem_append.mp hc2 with hd | hcur
  · exact wfOrd_mono _ _ h2 f
      (hfr c (List.mem_append_left _ hd) f hf)
  · rw [List.mem_singleton] at hcur
    subst hcur
    by_cases hemp : (parseParagraphInline st.cur.tempId st.blockIndex
        ⟨st.imgCounter, st.images, st.cur.imgPos⟩ runs).1.isEmpty = true
    · rw [show (paraBody st runs).cur.contentList
          = if (parseParagraphInline st.cur.tempId st.blockIndex
              ⟨st.imgCounter, st.images, st.cur.imgPos⟩ runs).1.isEmpty
            then st.cur.contentList
            else st.cur.contentList ++ [(parseParagraphInline st.cur.tempId
              st.blockIndex
              ⟨st.imgCounter, st.images, st.cur.imgPos⟩ runs).1] from rfl,
        if_pos hemp] at hf
      exact wfOrd_mono _ _ h2 f
        (hfr st.cur (List.mem_append_right _ (List.mem_singleton_self _)) f hf)
    · rw [show (paraBody st runs).cur.contentList
          = if (parseParagraphInline st.cur.tempId st.blockIndex
              ⟨st.imgCounter, st.images, st.cur.imgPos⟩ runs).1.isEmpty
            then st.cur.contentList
            else st.cur.contentList ++ [(parseParagraphInline st.cur.tempId
              st.blockIndex
              ⟨st.imgCounter, st.images, st.cur.imgPos⟩ runs).1] from rfl,
        if_neg hemp] at hf
      rcases List.mem_append.mp hf with hf2 | hf2
      · exact wfOrd_mono _ _ h2 f
          (hfr st.cur (List.mem_append_right _ (List.mem_singleton_self _))
            f hf2)
      · rw [List.mem_singleton] at hf2
        subst hf2
        exact h3

theorem c4Inv_table (st : PSt) (rows : List (List WCell))
    (hok : rows.all (fun row => row.all cellOk) = true) (hinv : C4Inv st) :
    C4Inv (blockStep st (WBlk.table rows)) := by
  obtain ⟨hc, ho, hfr⟩ := hinv
  obtain ⟨h1, h2, h3⟩ := parseTable_inv st.cur.tempId st.blockIndex
    ⟨st.imgCounter, st.images, st.cur.imgPos⟩ rows hok ⟨hc, ho⟩
  refine ⟨h1.1, h1.2, ?_⟩
  intro c hc2 f hf
  rcases List.mem_append.mp hc2 with hd | hcur
  · exact wfOrd_mono _ _ h2 f
      (hfr c (List.mem_append_left _ hd) f hf)
  · rw [List.mem_singleton] at hcur
    subst hcur
    by_cases hemp : (parseTable st.cur.tempId st.blockIndex
        ⟨st.imgCounter, st.images, st.cur.imgPos⟩ rows).1.isEmpty = true
    · rw [show (blockStep st (WBlk.table rows)).cur.contentList
          = if (parseTable st.cur.tempId st.blockIndex
              ⟨st.imgCounter, st.images, st.cur.imgPos⟩ rows).1.isEmpty
            then st.cur.contentList
            else st.cur.contentList ++ [(parseTable st.cur.tempId
              st.blockIndex
              ⟨st.imgCounter, st.images, st.cur.imgPos⟩ rows).1] from rfl,
        if_pos hemp] at hf
      exact wfOrd_mono _ _ h2 f
        (hfr st.cur (List.mem_append_right _ (List.mem_singleton_self _)) f hf)
    · rw [show (blockStep st (WBlk.table rows)).cur.contentList
          = if (parseTable st.cur.tempId st.blockIndex
              ⟨st.imgCounter, st.images, st.cur.imgPos⟩ rows).1.isEmpty
            then st.cur.contentList
            else st.cur.contentList ++ [(parseTable st.cur.tempId
              st.blockIndex
              ⟨st.imgCounter, st.images, st.cur.imgPos⟩ rows).1] from rfl,
        if_neg hemp] at hf
      rcases List.mem_append.mp hf with hf2 | hf2
      · exact wfOrd_mono _ _ h2 f
          (hfr st.cur (List.mem_append_right _ (List.mem_singleton_self _))
            f hf2)
      · rw [List.mem_singleton] at hf2
        subst hf2
        exact h3

theorem c4Inv_heading (st : PSt) (level : Nat) (title : List Char)
    (hinv : C4Inv st) : C4Inv (headingStep st level title) := by
  obtain ⟨hc, ho, hfr⟩ := hinv
  refine ⟨hc, ho, ?_⟩
  intro c hc2 f hf
  rcases List.mem_append.mp hc2 with hd | hcur
  · rcases List.mem_append.mp hd with hd2 | hd2
    · exact hfr c (List.mem_append_left _ hd2) f hf
    · rw [List.mem_singleton] at hd2
      subst hd2
      exact hfr st.cur
        (List.mem_append_right _ (List.mem_singleton_self _)) f hf
  · rw [List.mem_singleton] at hcur
    subst hcur
    rw [show (headingStep st level title).cur.contentList = [] from rfl] at hf
    simp at hf

theorem c4Inv_blockStep (st : PSt) (b : WBlk) (hok : blkOk b = true)
    (hinv : C4Inv st) : C4Inv (blockStep st b) := by
  cases b with
  | table rows => exact c4Inv_table st rows hok hinv
  | para p =>
    cases houtl : p.outline with
    | none =>
      simp only [blockStep, houtl]
      exact c4Inv_paraBody st p.runs hok hinv
    | some level =>
      simp only [blockStep, houtl]
      by_cases htitle : (pyStrip (plainText p.runs)).isEmpty = true
      · rw [if_pos htitle]
        exact c4Inv_paraBody st p.runs hok hinv
      · rw [if_neg htitle]
        exact c4Inv_heading st level _ hinv

theorem c4Inv_foldl :
    ∀ blocks : List WBlk, docBraceFree blocks = true →
      ∀ st : PSt, C4Inv st → C4Inv (blocks.foldl blockStep st) := by
  intro blocks
  induction blocks with
  | nil => intro _ st hinv; exact hinv
  | cons b bs ih =>
    intro hbf st hinv
    rw [docBraceFree, List.all_cons, Bool.and_eq_true_iff] at hbf
    rw [List.foldl_cons]
    exact ih hbf.2 _ (c4Inv_blockStep st b hbf.1 hinv)

theorem c4Inv_init : C4Inv initPSt := by
  refine ⟨rfl, rfl, ?_⟩
  intro c hc2 f hf
  simp only [initPSt, chapList, List.nil_append, List.mem_singleton] at hc2
  subst hc2
  simp [initChapter] at hf

/-- **C4.** For every parsed document whose own text is brace-free, the
image records' `order_in_doc` values are exactly `1, 2, …` in encounter
order of the globally monotonic counter; every `IMAGE_ORDER` placeholder
readable in a chapter's content names exactly one image record; and after
the post-pass rewrite with the persisted ids (`order_to_image_id` defined
for every saved image), no `IMAGE_ORDER` token remains in any chapter's
persisted content. -/
theorem c4_image_placeholder_roundtrip (blocks : List WBlk)
    (hbf : docBraceFree blocks = true) (idMap : Nat → Option Nat)
    (hid : ∀ img ∈ (wordParse blocks).2,
      (idMap img.orderInDoc).isSome = true) :
    (wordParse blocks).2.map ImgRec.orderInDoc
        = List.range' 1 (wordParse blocks).2.length
    ∧ (∀ c ∈ (wordParse blocks).1, ∀ n ∈ ordToksIn (chapterContent c),
        ((wordParse blocks).2.filter
          (fun i => i.orderInDoc == n)).length = 1)
    ∧ (∀ c ∈ (wordParse blocks).1,
        ordToksIn (persistedContent idMap c) = []) := by
  obtain ⟨hc, ho, hfr⟩ := c4Inv_foldl blocks hbf initPSt c4Inv_init
  have hwfc : ∀ c ∈ chapList (blocks.foldl blockStep initPSt),
      wfOrd (blocks.foldl blockStep initPSt).imgCounter
        (chapterContent c) = true := fun c hc2 =>
    wfOrd_pyStrip _ _ (wfOrd_joinSep _ ['\n'] (by decide) _ (hfr c hc2))
  refine ⟨ho, ?_, ?_⟩
  · intro c hc2 n hn
    have hb := ordToksIn_bounds _ _ (hwfc c hc2) n hn
    have hcnt : (((blocks.foldl blockStep initPSt).images).filter
          (fun i => i.orderInDoc == n)).length
        = (((blocks.foldl blockStep initPSt).images).map
            ImgRec.orderInDoc).count n := by
      rw [List.count, List.countP_map, List.countP_eq_length_filter]
      rfl
    show (((blocks.foldl blockStep initPSt).images).filter
        (fun i => i.orderInDoc == n)).length = 1
    rw [hcnt, ho]
    refine List.count_eq_one_of_mem (List.nodup_range' ..) ?_
    refine List.mem_range'_1.mpr ⟨hb.1, ?_⟩
    have := hb.2
    rw [hc] at this
    omega
  · intro c hc2
    rw [persistedContent]
    by_cases hcs : containsSub imageOrderPre (chapterContent c) = true
    · rw [if_pos hcs]
      refine ordToksIn_rewrite idMap
        (blocks.foldl blockStep initPSt).imgCounter ?_ _ _
        (Nat.le_refl _) (hwfc c hc2)
      intro n h1 h2
      have hmem : n ∈ ((blocks.foldl blockStep initPSt).images).map
          ImgRec.orderInDoc := by
        rw [ho]
        refine List.mem_range'_1.mpr ⟨h1, ?_⟩
        rw [hc] at h2
        omega
      obtain ⟨img, himg, hordn⟩ := List.mem_map.mp hmem
      rw [← hordn]
      exact hid img himg
    · rw [if_neg hcs]
      by_contra hne
      exact hcs (containsSub_of_tok _ hne)

/-- A concrete document for the C4 witness: one body paragraph holding
text and a drawing with two resolved rIds and one unresolved. -/
def c4doc : List WBlk :=
  [WBlk.para ⟨none, [⟨[RunChild.t "图".data,
    RunChild.drawing [true, false, true]], "图".data⟩]⟩]

theorem c4_image_placeholder_roundtrip_witness :
    (wordParse c4doc).2.map ImgRec.orderInDoc
        = List.range' 1 (wordParse c4doc).2.length
    ∧ (∀ c ∈ (wordParse c4doc).1, ∀ n ∈ ordToksIn (chapterContent c),
        ((wordParse c4doc).2.filter
          (fun i => i.orderInDoc == n)).length = 1)
    ∧ (∀ c ∈ (wordParse c4doc).1,
        ordToksIn (persistedContent (fun n => some (n + 100)) c) = []) :=
  c4_image_placeholder_roundtrip c4doc (by decide)
    (fun n => some (n + 100)) (by intro img _; rfl)

/-- **C6.** A heading at level `L` pops every ancestor-stack entry with
level `≥ L` and the new chapter's parent is the remaining stack top (or
none); consequently, after any block stream the stack's levels are strictly
increasing bottom-to-top (strictly decreasing from the list head, which
models `parent_stack[-1]`), every chapter whose `parent_temp_id` is set has
its level strictly greater than that (unique) parent chapter's level, and
temp ids are pairwise distinct. -/
theorem c6_stack_and_parent_levels (blocks : List WBlk) :
    stackDesc (blocks.foldl blockStep initPSt).stack = true
    ∧ (∀ c ∈ (wordParse blocks).1, ∀ p, c.parentTempId = some p →
        ∃ c2 ∈ (wordParse blocks).1, c2.tempId = p ∧ c2.level < c.level)
    ∧ ((wordParse blocks).1.map Chapter.tempId).Nodup := by
  have h := parseInv_foldl initPSt parseInv_init blocks
  refine ⟨h.desc, fun c hc p hp => h.parents c hc p hp, ?_⟩
  show ((chapList (blocks.foldl blockStep initPSt)).map Chapter.tempId).Nodup
  rw [h.ids]
  exact List.nodup_range _

end FileProcess
